import Mathlib

/-!
Verification of the wiggers-graaf sliding-block (Klotski) solver core.

This file gives a shallow embedding of the Rust sources:
  * `src/board/mod.rs`  — board model, move generation, identity hashing,
  * `src/graph/mod.rs`  — deduplicated state graph and BFS distance labeling,
  * `src/solver.rs`     — discovery loop and orchestration,
and proves properties of the embedded definitions.

Modelling conventions:
  * Rust `i32` is modelled as `Int` (the program never approaches the i32
    range; wrap-around arithmetic is not modelled).  Where the source casts
    an `i32` to `u8` (`as u8`) or hashes an `i32`, the two's-complement
    truncation is modelled explicitly (`asU8`, `u32ofInt`).
  * `u64` values (board ids, SipHash state) are `Nat` reduced `% 2^64`.
  * Rust panics (`panic!`, `expect`) are modelled as `Option`/`Except`
    results: `none` means the Rust program aborts.
  * `std::collections::HashMap` is modelled as an association list with
    first-match lookup; `VecDeque` as a list popped at the head;
    `Vec` used as a stack (`push`/`pop`) as a list consed/popped at the head.
  * `DefaultHasher` is Rust std's SipHash-1-3 with both keys 0; it is
    implemented here bit-for-bit on the byte stream that `#[derive(Hash)]`
    feeds it (fields in declaration order, slices length-prefixed, integers
    as little-endian bytes; `usize` is taken at the crate's wasm32 target
    width of 4 bytes).
-/

set_option maxRecDepth 100000

namespace WiggersGraaf

/-! ## Board data model (src/board/mod.rs) -/

/-- `Coordinates { x: i32, y: i32 }`. -/
structure Coordinates where
  x : Int
  y : Int
deriving DecidableEq, Repr

/-- `Size { x: i32, y: i32 }`. -/
structure Size where
  x : Int
  y : Int
deriving DecidableEq, Repr

/-- `enum SlideDirection { Up, Down, Left, Right }`. -/
inductive SlideDirection where
  | Up
  | Down
  | Left
  | Right
deriving DecidableEq, Repr

/-- `SlideMove { start, direction, distance: u8 }` (distance modelled as `Nat`). -/
structure SlideMove where
  start : Coordinates
  direction : SlideDirection
  distance : Nat
deriving DecidableEq, Repr

/-- `Piece { position, size }`. -/
structure Piece where
  position : Coordinates
  size : Size
deriving DecidableEq, Repr

/-- `Board { size, pieces: [Piece; 10] }` (the fixed-size array as a list). -/
structure Board where
  size : Size
  pieces : List Piece
deriving DecidableEq, Repr

/-- The derived lexicographic `Ord` on `Piece`: by position (x, then y),
then size (x, then y) — `#[derive(PartialOrd, Ord)]` on `Coordinates`,
`Size` and `Piece` in field declaration order. -/
def PieceLe (a b : Piece) : Prop :=
  a.position.x < b.position.x ∨
    (a.position.x = b.position.x ∧
      (a.position.y < b.position.y ∨
        (a.position.y = b.position.y ∧
          (a.size.x < b.size.x ∨
            (a.size.x = b.size.x ∧ a.size.y ≤ b.size.y)))))

instance : DecidableRel PieceLe := fun a b => by
  unfold PieceLe
  exact inferInstance

instance : IsTotal Piece PieceLe := by
  constructor
  intro a b
  unfold PieceLe
  omega

instance : IsTrans Piece PieceLe := by
  constructor
  intro a b c
  unfold PieceLe
  omega

instance : IsAntisymm Piece PieceLe := by
  constructor
  intro a b h1 h2
  have hx : a.position.x = b.position.x ∧ a.position.y = b.position.y ∧
      a.size.x = b.size.x ∧ a.size.y = b.size.y := by
    unfold PieceLe at h1 h2
    omega
  obtain ⟨p, s⟩ := a
  obtain ⟨p', s'⟩ := b
  obtain ⟨px, py⟩ := p
  obtain ⟨px', py'⟩ := p'
  obtain ⟨sx, sy⟩ := s
  obtain ⟨sx', sy'⟩ := s'
  simp only at hx
  simp [hx.1, hx.2.1, hx.2.2.1, hx.2.2.2]

/-- `pieces.sort()`: Rust's stable sort by the derived `Ord`.  With a total
antisymmetric order the sorted permutation is unique, so insertion sort
computes the same array as Rust's merge sort. -/
def sortPieces (l : List Piece) : List Piece :=
  List.insertionSort PieceLe l

/-! ## Board identity: `to_id` via `DefaultHasher` (SipHash-1-3, keys 0)

`to_id` builds a `DefaultHasher`, feeds it `Board::hash` (which hashes the
piece array, then the board size) and returns `finish()`. -/

/-- Two's-complement value of an `i32` as a `u32` bit pattern. -/
def u32ofInt (v : Int) : Nat :=
  (v % (2 ^ 32 : Int)).toNat

/-- `i32 as u8` truncation (used for the slide-distance range bound). -/
def asU8 (v : Int) : Nat :=
  (v % (2 ^ 8 : Int)).toNat

/-- Little-endian bytes of a `u32`. -/
def bytesLE4 (n : Nat) : List Nat :=
  [n % 256, n / 256 % 256, n / 256 ^ 2 % 256, n / 256 ^ 3 % 256]

/-- `Hasher::write_i32`: the value's 4 bytes, little-endian (wasm32/x86). -/
def i32Bytes (v : Int) : List Nat :=
  bytesLE4 (u32ofInt v)

/-- `Hasher::write_usize` on the crate's wasm32 target: 4 little-endian bytes. -/
def usizeBytes (n : Nat) : List Nat :=
  bytesLE4 (n % 2 ^ 32)

/-- Byte stream of `#[derive(Hash)]` for `Piece`: position then size. -/
def pieceBytes (p : Piece) : List Nat :=
  i32Bytes p.position.x ++ i32Bytes p.position.y ++ i32Bytes p.size.x ++ i32Bytes p.size.y

/-- Byte stream of `impl Hash for Board`: the piece slice (length prefix then
each piece) followed by the board size. -/
def boardBytes (b : Board) : List Nat :=
  usizeBytes b.pieces.length ++ b.pieces.flatMap pieceBytes
    ++ i32Bytes b.size.x ++ i32Bytes b.size.y

/-- 2^64, the modulus of the hasher's word arithmetic. -/
def M64 : Nat := 2 ^ 64

/-- Rotate a 64-bit word left by `r` (0 < r < 64). -/
def rotl64 (x r : Nat) : Nat :=
  ((x <<< r) % M64) ||| (x >>> (64 - r))

/-- One SipHash round on the four-word state. -/
def sipRound : Nat × Nat × Nat × Nat → Nat × Nat × Nat × Nat :=
  fun (v0, v1, v2, v3) =>
    let v0 := (v0 + v1) % M64
    let v1 := rotl64 v1 13
    let v1 := v1 ^^^ v0
    let v0 := rotl64 v0 32
    let v2 := (v2 + v3) % M64
    let v3 := rotl64 v3 16
    let v3 := v3 ^^^ v2
    let v0 := (v0 + v3) % M64
    let v3 := rotl64 v3 21
    let v3 := v3 ^^^ v0
    let v2 := (v2 + v1) % M64
    let v1 := rotl64 v1 17
    let v1 := v1 ^^^ v2
    let v2 := rotl64 v2 32
    (v0, v1, v2, v3)

/-- Compress one message word (SipHash-1-3: a single c-round). -/
def sipCompress (s : Nat × Nat × Nat × Nat) (m : Nat) : Nat × Nat × Nat × Nat :=
  let (v0, v1, v2, v3) := s
  let (v0, v1, v2, v3) := sipRound (v0, v1, v2, v3 ^^^ m)
  (v0 ^^^ m, v1, v2, v3)

/-- Little-endian word value of up to 8 bytes (first byte least significant). -/
def leWord (bs : List Nat) : Nat :=
  bs.foldr (fun b acc => b + 256 * acc) 0

/-- Split a byte stream into complete 8-byte little-endian words and a tail. -/
def splitWords : List Nat → List Nat × List Nat
  | b0 :: b1 :: b2 :: b3 :: b4 :: b5 :: b6 :: b7 :: rest =>
    let (ws, t) := splitWords rest
    (leWord [b0, b1, b2, b3, b4, b5, b6, b7] :: ws, t)
  | t => ([], t)

/-- SipHash-1-3 of a byte stream with both keys 0 — Rust's
`DefaultHasher::new()` followed by `write` and `finish`.  (On the empty
stream this evaluates to 15130871412783076140, the well-known output of
`DefaultHasher::new().finish()`.) -/
def siphash13 (bs : List Nat) : Nat :=
  let k0 : Nat := 0
  let k1 : Nat := 0
  let s : Nat × Nat × Nat × Nat :=
    (0x736f6d6570736575 ^^^ k0, 0x646f72616e646f6d ^^^ k1,
     0x6c7967656e657261 ^^^ k0, 0x7465646279746573 ^^^ k1)
  let (ws, tail) := splitWords bs
  let s := ws.foldl sipCompress s
  let b := ((bs.length % 256) <<< 56) ||| leWord tail
  let s := sipCompress s b
  let (v0, v1, v2, v3) := s
  let (v0, v1, v2, v3) := sipRound (sipRound (sipRound (v0, v1, v2 ^^^ 0xff, v3)))
  v0 ^^^ v1 ^^^ v2 ^^^ v3

/-- `BoardId = u64`. -/
abbrev BoardId := Nat

/-- `to_id(board)`: hash the board with `DefaultHasher` and `finish()`. -/
def to_id (b : Board) : BoardId :=
  siphash13 (boardBytes b)

/-- `const SIZE: Size = Size { x: 4, y: 5 }`. -/
def SIZE : Size := ⟨4, 5⟩

/-- `SlideMove::get_endpoint`: start displaced by distance along the direction. -/
def SlideMove.get_endpoint (mv : SlideMove) : Coordinates :=
  let d : Int := (mv.distance : Int)
  match mv.direction with
  | .Up => ⟨mv.start.x, mv.start.y + d⟩
  | .Down => ⟨mv.start.x, mv.start.y - d⟩
  | .Left => ⟨mv.start.x - d, mv.start.y⟩
  | .Right => ⟨mv.start.x + d, mv.start.y⟩

/-- `get_start_board()`: the hard-coded layout, sorted before returning. -/
def get_start_board : Board :=
  let pieces : List Piece := [
    ⟨⟨0, 3⟩, ⟨1, 2⟩⟩,  -- A
    ⟨⟨1, 3⟩, ⟨2, 2⟩⟩,  -- B
    ⟨⟨3, 3⟩, ⟨1, 2⟩⟩,  -- C
    ⟨⟨0, 1⟩, ⟨1, 2⟩⟩,  -- D
    ⟨⟨1, 2⟩, ⟨2, 1⟩⟩,  -- E
    ⟨⟨3, 1⟩, ⟨1, 2⟩⟩,  -- F
    ⟨⟨1, 1⟩, ⟨1, 1⟩⟩,  -- G
    ⟨⟨2, 1⟩, ⟨1, 1⟩⟩,  -- H
    ⟨⟨0, 0⟩, ⟨1, 1⟩⟩,  -- I
    ⟨⟨3, 0⟩, ⟨1, 1⟩⟩]  -- J
  ⟨SIZE, sortPieces pieces⟩

/-- `get_solved_board()`: the 2×2 piece at the winning position (1,0) padded
with nine dummy 1×1 pieces, sorted before returning. -/
def get_solved_board : Board :=
  let pieces : List Piece := [
    ⟨⟨0, 0⟩, ⟨1, 1⟩⟩,  -- A, fake
    ⟨⟨1, 0⟩, ⟨2, 2⟩⟩,  -- B
    ⟨⟨0, 1⟩, ⟨1, 1⟩⟩,  -- C, fake
    ⟨⟨0, 2⟩, ⟨1, 1⟩⟩,  -- D, fake
    ⟨⟨0, 3⟩, ⟨1, 1⟩⟩,  -- E, fake
    ⟨⟨0, 4⟩, ⟨1, 1⟩⟩,  -- F, fake
    ⟨⟨3, 0⟩, ⟨1, 1⟩⟩,  -- G, fake
    ⟨⟨3, 1⟩, ⟨1, 1⟩⟩,  -- H, fake
    ⟨⟨3, 2⟩, ⟨1, 1⟩⟩,  -- I, fake
    ⟨⟨3, 3⟩, ⟨1, 1⟩⟩]  -- J, fake
  ⟨SIZE, sortPieces pieces⟩

/-- `collide(a, b)`: open-rectangle overlap test, in source orientation. -/
def collide (a b : Piece) : Bool :=
  decide (a.position.x + a.size.x > b.position.x ∧
    a.position.x < b.position.x + b.size.x ∧
    a.position.y + a.size.y > b.position.y ∧
    a.position.y < b.position.y + b.size.y)

/-- `has_collision`: any of the `tuple_combinations` of two pieces collides. -/
def has_collision : List Piece → Bool
  | [] => false
  | p :: rest => rest.any (collide p) || has_collision rest

/-- `is_on_board(piece, board)`: the piece lies inside the board rectangle. -/
def is_on_board (p : Piece) (b : Board) : Bool :=
  decide (0 ≤ p.position.x ∧ p.position.x + p.size.x ≤ b.size.x ∧
    0 ≤ p.position.y ∧ p.position.y + p.size.y ≤ b.size.y)

/-- `is_valid(board)`: all pieces on the board and no collision. -/
def is_valid (b : Board) : Bool :=
  b.pieces.all (fun p => is_on_board p b) && !has_collision b.pieces

/-- `is_solution(board)`: some piece is 2×2 at position (1,0). -/
def is_solution (b : Board) : Bool :=
  b.pieces.any fun p =>
    decide (p.size.x = 2 ∧ p.size.y = 2 ∧ p.position.x = 1 ∧ p.position.y = 0)

/-- The two `anyhow` failures of `make_move`. -/
inductive MoveError where
  | noPieceAtStart
  | invalidMove
deriving DecidableEq, Repr

/-- `iter_mut().find(|p| p.position == start)` followed by the in-place
position update: the first piece whose position equals `st` is replaced by
the same piece moved to `tgt`; `none` if no piece is at `st`. -/
def moveFirst : List Piece → Coordinates → Coordinates → Option (List Piece)
  | [], _, _ => none
  | p :: rest, st, tgt =>
    if p.position = st then some (⟨tgt, p.size⟩ :: rest)
    else (moveFirst rest st tgt).map (p :: ·)

/-- `make_move(board, slide_move)`: copy, move the found piece to the move's
endpoint, re-sort, validate. -/
def make_move (b : Board) (mv : SlideMove) : Except MoveError Board :=
  match moveFirst b.pieces mv.start mv.get_endpoint with
  | none => .error .noPieceAtStart
  | some ps =>
    if is_valid ⟨b.size, sortPieces ps⟩ then .ok ⟨b.size, sortPieces ps⟩
    else .error .invalidMove

instance : DecidableEq (Except MoveError Board) := fun a b =>
  match a, b with
  | .ok x, .ok y => decidable_of_iff (x = y) (by simp)
  | .error x, .error y => decidable_of_iff (x = y) (by simp)
  | .ok _, .error _ => isFalse (by simp)
  | .error _, .ok _ => isFalse (by simp)

/-- The direction order used by `get_valid_moves`. -/
def dirOrder : List SlideDirection := [.Up, .Down, .Left, .Right]

/-- Iterator `map_while`: map until the first `none`. -/
def mapWhileAux {α : Type} (f : Nat → Option α) : List Nat → List α
  | [] => []
  | d :: rest =>
    match f d with
    | none => []
    | some a => a :: mapWhileAux f rest

/-- The `move_piece` closure of `get_valid_moves`. -/
def move_piece (b : Board) (p : Piece) (dir : SlideDirection) (d : Nat) :
    Option (SlideMove × Board) :=
  let mv : SlideMove := ⟨p.position, dir, d⟩
  match make_move b mv with
  | .ok nb => some (mv, nb)
  | .error _ => none

/-- The `1..max(size.x, size.y) as u8` distance range (upper bound excluded). -/
def distanceRange (b : Board) : List Nat :=
  List.range' 1 (asU8 (max b.size.x b.size.y) - 1)

/-- `get_valid_moves(board)`: for the cartesian product of pieces (in stored
order) and the four directions, slide while `make_move` keeps succeeding. -/
def get_valid_moves (b : Board) : List (SlideMove × Board) :=
  b.pieces.flatMap fun p =>
    dirOrder.flatMap fun dir =>
      mapWhileAux (move_piece b p dir) (distanceRange b)

/-! ## State graph (src/graph/mod.rs) -/

/-- `Edge { neighbor: BoardId, slide_move: SlideMove }`. -/
structure Edge where
  neighbor : BoardId
  slide_move : SlideMove
deriving DecidableEq, Repr

/-- `Node`: a board, its outgoing edges and the two BFS distance labels. -/
structure Node where
  board : Board
  edges : List Edge
  distance_to_start : Option Nat
  distance_to_solution : Option Nat
  on_shortest_path : Bool
deriving DecidableEq, Repr

/-- The graph's `HashMap<BoardId, Node>`, as an association list with
first-match lookup (the map's keys are kept distinct by construction). -/
abbrev GraphMap := List (BoardId × Node)

/-- The node freshly inserted by `add_node`. -/
def newNode (b : Board) : Node :=
  ⟨b, [], none, none, false⟩

/-- `map.get(&k)`. -/
def lookupNode : GraphMap → BoardId → Option Node
  | [], _ => none
  | (k, n) :: rest, k' => if k = k' then some n else lookupNode rest k'

/-- `map.get_mut(&k)` followed by an in-place update of the entry. -/
def updateNode : GraphMap → BoardId → (Node → Node) → GraphMap
  | [], _, _ => []
  | (k, n) :: rest, k', f =>
    if k = k' then (k, f n) :: rest else (k, n) :: updateNode rest k' f

/-- `Graph::add_node`: insert a fresh node keyed by `to_id`; `none` models
the hash-collision `panic!` when the id is taken by a different board;
an equal board already present is a no-op. -/
def add_node (g : GraphMap) (b : Board) : Option GraphMap :=
  match lookupNode g (to_id b) with
  | some entry => if entry.board = b then some g else none
  | none => some ((to_id b, newNode b) :: g)

/-- `Graph::contains_node`. -/
def contains_node (g : GraphMap) (b : Board) : Bool :=
  (lookupNode g (to_id b)).isSome

/-- `Graph::node_count`. -/
def node_count (g : GraphMap) : Nat :=
  g.length

/-- `Graph::add_edge`: append an edge to `from`'s node; `none` models the
`expect("Inserting edge from unknown node")` panic.  The `to` board is
only hashed, never looked up. -/
def add_edge (g : GraphMap) (bfrom bto : Board) (mv : SlideMove) : Option GraphMap :=
  match lookupNode g (to_id bfrom) with
  | none => none
  | some _ =>
    some (updateNode g (to_id bfrom)
      fun n => { n with edges := n.edges ++ [⟨to_id bto, mv⟩] })

/-- Which distance field a `distance_from` pass writes: `analyze` runs the
traversal once with each of the two predicates. -/
inductive DistField where
  | toStart
  | toSolution
deriving DecidableEq, Repr

/-- Read the field targeted by the pass's predicate. -/
def getDist : DistField → Node → Option Nat
  | .toStart, n => n.distance_to_start
  | .toSolution, n => n.distance_to_solution

/-- Write the field targeted by the pass's predicate. -/
def setDist : DistField → Node → Nat → Node
  | .toStart, n, d => { n with distance_to_start := some d }
  | .toSolution, n, d => { n with distance_to_solution := some d }

/-- Set the node's distance field in the map. -/
def labelNode (g : GraphMap) (k : BoardId) (fld : DistField) (d : Nat) : GraphMap :=
  updateNode g k fun n => setDist fld n d

/-- Number of map entries whose targeted distance field is still unset
(the termination measure of the traversal). -/
def countNone (fld : DistField) (g : GraphMap) : Nat :=
  g.countP fun p => (getDist fld p.2).isNone

theorem getDist_setDist (fld : DistField) (n : Node) (d : Nat) :
    getDist fld (setDist fld n d) = some d := by
  cases fld <;> rfl

theorem countNone_labelNode_lt (fld : DistField) (g : GraphMap) (k : BoardId)
    (d : Nat) (n : Node) (hl : lookupNode g k = some n)
    (hn : getDist fld n = none) :
    countNone fld (labelNode g k fld d) < countNone fld g := by
  induction g with
  | nil => simp [lookupNode] at hl
  | cons hd rest ih =>
    obtain ⟨k', n'⟩ := hd
    by_cases hk : k' = k
    · subst hk
      have hl' : n' = n := by simpa [lookupNode] using hl
      subst hl'
      simp [countNone, labelNode, updateNode, List.countP_cons, getDist_setDist, hn]
    · simp only [lookupNode, if_neg hk] at hl
      have := ih hl
      simp only [countNone, labelNode, updateNode, if_neg hk, List.countP_cons] at *
      omega

/-- `Graph::distance_from`'s BFS loop.  The queue holds `(key, distance)`
pairs; `none` models the `expect("Graph does not contain this board.")`
panic on a key absent from the map.  The predicate of `analyze` is inlined:
a node whose field is already set is skipped, otherwise the field is set,
the running maximum updated, and all neighbors enqueued at distance+1. -/
def bfsAux (fld : DistField) (g : GraphMap) (q : List (BoardId × Nat))
    (maxd : Nat) : Option (GraphMap × Nat) :=
  match q with
  | [] => some (g, maxd)
  | (k, d) :: rest =>
    match hl : lookupNode g k with
    | none => none
    | some node =>
      match hn : getDist fld node with
      | some _ => bfsAux fld g rest maxd
      | none =>
        bfsAux fld (labelNode g k fld d)
          (rest ++ node.edges.map fun e => (e.neighbor, d + 1)) (max maxd d)
termination_by (countNone fld g, q.length)
decreasing_by
  · apply Prod.Lex.right
    simp
  · apply Prod.Lex.left
    exact countNone_labelNode_lt fld g k d node hl hn

/-- `Graph::distance_from(from, pred)`: run the BFS from `(from, 0)`,
returning the final map and the maximum distance assigned. -/
def distance_from (fld : DistField) (g : GraphMap) (start : BoardId) :
    Option (GraphMap × Nat) :=
  bfsAux fld g [(start, 0)] 0

/-- `Graph::analyze`: label distances from the start board, then from the
solution board, then read both nodes back for the summary printout (whose
`expect`s are modelled as `none`). -/
def analyze (g : GraphMap) (start solution : Board) :
    Option (GraphMap × Nat × Nat) :=
  match distance_from .toStart g (to_id start) with
  | none => none
  | some (g1, m1) =>
    match distance_from .toSolution g1 (to_id solution) with
    | none => none
    | some (g2, m2) =>
      match lookupNode g2 (to_id start), lookupNode g2 (to_id solution) with
      | some _, some _ => some (g2, m1, m2)
      | _, _ => none

/-! ## Solver orchestration (src/solver.rs) -/

/-- The fixed placeholder move attached to both synthetic solution edges. -/
def fakeMove : SlideMove := ⟨⟨1, 0⟩, .Down, 1⟩

/-- The body of the `for_each` over `get_valid_moves(board)`: maybe enqueue
the successor (if in neither the graph nor the queue), then `add_edge`.
The Rust work queue is a `Vec` used as a stack, modelled with its top at
the list head. -/
def processMoves (b : Board) : GraphMap → List Board → List (SlideMove × Board) →
    Option (GraphMap × List Board)
  | g, q, [] => some (g, q)
  | g, q, (mv, nb) :: rest =>
    let q' := if contains_node g nb = false ∧ nb ∉ q then nb :: q else q
    match add_edge g b nb mv with
    | none => none
    | some g2 => processMoves b g2 q' rest

/-- One iteration of the discovery loop on the popped board `b` (the queue
argument is the queue after the pop): `add_node`, process all valid moves,
and, when `is_solution b`, add the two synthetic placeholder edges. -/
def solverStep (g : GraphMap) (q : List Board) (b : Board) :
    Option (GraphMap × List Board) :=
  match add_node g b with
  | none => none
  | some g1 =>
    match processMoves b g1 q (get_valid_moves b) with
    | none => none
    | some (g2, q2) =>
      if is_solution b then
        match add_edge g2 b get_solved_board fakeMove with
        | none => none
        | some g3 =>
          match add_edge g3 get_solved_board b fakeMove with
          | none => none
          | some g4 => some (g4, q2)
      else some (g2, q2)

/-- `generate_moves`: the discovery loop, with explicit fuel for
termination (`none` covers fuel exhaustion as well as the panics). -/
def generate_moves : Nat → GraphMap → List Board → Option GraphMap
  | 0, _, _ => none
  | _ + 1, g, [] => some g
  | fuel + 1, g, b :: rest =>
    match solverStep g rest b with
    | none => none
    | some (g2, q2) => generate_moves fuel g2 q2

/-- `Solver::new()`: add the solved-anchor node, run discovery from the
start board, then analyze distances from the start and solution boards. -/
def solver_new (fuel : Nat) : Option (GraphMap × Nat × Nat) :=
  match add_node [] get_solved_board with
  | none => none
  | some g0 =>
    match generate_moves fuel g0 [get_start_board] with
    | none => none
    | some g1 => analyze g1 get_start_board get_solved_board

/-! ## General lemmas about the embedded definitions -/

theorem sortPieces_sorted (l : List Piece) : List.Sorted PieceLe (sortPieces l) :=
  List.sorted_insertionSort PieceLe l

theorem sortPieces_perm (l : List Piece) : List.Perm (sortPieces l) l :=
  List.perm_insertionSort PieceLe l

/-- Whatever `make_move` returns successfully came out of `sortPieces`. -/
theorem make_move_ok_shape (b : Board) (mv : SlideMove) (b' : Board)
    (h : make_move b mv = Except.ok b') :
    ∃ ps, moveFirst b.pieces mv.start mv.get_endpoint = some ps ∧
      b' = ⟨b.size, sortPieces ps⟩ ∧ is_valid ⟨b.size, sortPieces ps⟩ = true := by
  unfold make_move at h
  cases hm : moveFirst b.pieces mv.start mv.get_endpoint with
  | none => rw [hm] at h; exact absurd h (by simp)
  | some ps =>
    rw [hm] at h
    dsimp only at h
    by_cases hv : is_valid ⟨b.size, sortPieces ps⟩ = true
    · refine ⟨ps, rfl, ?_, hv⟩
      rw [if_pos hv] at h
      exact (Except.ok.inj h).symm
    · rw [if_neg hv] at h
      exact absurd h (by simp)

/-! ## Claim C2 — determinism and permutation invariance of `to_id` -/

/-- The start board with its first two (canonically sorted) pieces swapped:
the same physical arrangement, stored in a different array order. -/
def startPermBoard : Board :=
  ⟨SIZE, [
    ⟨⟨0, 1⟩, ⟨1, 2⟩⟩,
    ⟨⟨0, 0⟩, ⟨1, 1⟩⟩,
    ⟨⟨0, 3⟩, ⟨1, 2⟩⟩,
    ⟨⟨1, 1⟩, ⟨1, 1⟩⟩,
    ⟨⟨1, 2⟩, ⟨2, 1⟩⟩,
    ⟨⟨1, 3⟩, ⟨2, 2⟩⟩,
    ⟨⟨2, 1⟩, ⟨1, 1⟩⟩,
    ⟨⟨3, 0⟩, ⟨1, 1⟩⟩,
    ⟨⟨3, 1⟩, ⟨1, 2⟩⟩,
    ⟨⟨3, 3⟩, ⟨1, 2⟩⟩]⟩

/-- C2, counterexample: `to_id` hashes the piece array in stored order, so
two boards that are permutations of the same physical arrangement (here the
start board and the same board with its first two pieces swapped) produce
different `BoardId`s, refuting the claim's permutation-invariance for
arbitrarily ordered boards. -/
theorem c2_counterexample :
    List.Perm get_start_board.pieces startPermBoard.pieces ∧
    get_start_board.size = startPermBoard.size ∧
    to_id get_start_board ≠ to_id startPermBoard :=
  ⟨by decide, by decide, by decide⟩

/-- C2 (amended): `to_id` is deterministic (equal boards hash equally), and
two piece-set-equal boards produce the same id provided both piece arrays
are in canonical sorted order — the form in which the code maintains every
board.  (Differently-ordered permutations may hash differently, see the
counterexample.) -/
theorem c2_to_id_deterministic_and_canonical :
    (∀ b b' : Board, b = b' → to_id b = to_id b') ∧
    (∀ b b' : Board, b.size = b'.size → List.Perm b.pieces b'.pieces →
      List.Sorted PieceLe b.pieces → List.Sorted PieceLe b'.pieces →
      to_id b = to_id b') := by
  constructor
  · intro b b' h
    rw [h]
  · intro b b' hs hp s1 s2
    have hpieces : b.pieces = b'.pieces := List.eq_of_perm_of_sorted hp s1 s2
    have hb : b = b' := by
      cases b; cases b'
      simp_all
    rw [hb]

/-- C2 witness: the amended theorem applied to the canonical start board. -/
theorem c2_witness : to_id get_start_board = to_id get_start_board :=
  c2_to_id_deterministic_and_canonical.2 get_start_board get_start_board rfl
    (List.Perm.refl _) (by decide) (by decide)

/-! ## Claim C7 — idempotence of `add_node` -/

/-- C7, counterexample: calling `add_node` a second time with a
piece-set-equal but differently-ordered board is NOT a no-op: the permuted
board hashes to a different id, so a second node is inserted and
`node_count` rises to 2. -/
theorem c7_counterexample :
    ((add_node [] get_start_board).bind fun g1 =>
        add_node g1 startPermBoard).map node_count = some 2 ∧
    List.Perm get_start_board.pieces startPermBoard.pieces ∧
    get_start_board.size = startPermBoard.size :=
  ⟨by decide, by decide, by decide⟩

/-- C7 (amended): calling `add_node` a second time with an equal board
(in particular, any piece-set-equal board in the same canonical sorted
order, which is how the code stores all boards) is a no-op: the graph —
hence the existing node's board, edges and distance fields, and
`node_count` — is returned unchanged. -/
theorem c7_add_node_idempotent (g : GraphMap) (b : Board) (g1 : GraphMap)
    (h : add_node g b = some g1) : add_node g1 b = some g1 := by
  unfold add_node at h ⊢
  cases hl : lookupNode g (to_id b) with
  | some entry =>
    rw [hl] at h
    by_cases hb : entry.board = b
    · simp only [hb, if_true] at h
      obtain rfl : g = g1 := Option.some.inj h
      rw [hl]
      simp [hb]
    · simp [hb] at h
  | none =>
    rw [hl] at h
    obtain rfl : ((to_id b, newNode b) :: g : GraphMap) = g1 := Option.some.inj h
    simp [lookupNode, newNode]

/-- C7 witness: inserting the start board twice leaves the singleton graph
unchanged. -/
theorem c7_witness :
    add_node [(to_id get_start_board, newNode get_start_board)] get_start_board
      = some [(to_id get_start_board, newNode get_start_board)] :=
  c7_add_node_idempotent [] get_start_board
    [(to_id get_start_board, newNode get_start_board)] (by decide)

/-! ## Claim C9 — `add_edge` panics exactly on a missing source node -/

/-- C9: `add_edge` panics (returns `none`) iff `from`'s id has no node; on
success it only appends `(to_id to, move)` to `from`'s edge list, never
looking `to`'s id up — so the result can hold an edge whose neighbor id is
absent from the map (see the witness). -/
theorem c9_add_edge_panic_iff (g : GraphMap) (bfrom bto : Board) (mv : SlideMove) :
    (add_edge g bfrom bto mv = none ↔ lookupNode g (to_id bfrom) = none) ∧
    (∀ n, lookupNode g (to_id bfrom) = some n →
      add_edge g bfrom bto mv =
        some (updateNode g (to_id bfrom)
          fun m => { m with edges := m.edges ++ [⟨to_id bto, mv⟩] })) := by
  constructor
  · unfold add_edge
    cases hl : lookupNode g (to_id bfrom) <;> simp
  · intro n hn
    unfold add_edge
    rw [hn]

/-- C9 witness: on a graph holding only the start board's node, adding an
edge towards the (absent) solved board succeeds and leaves a dangling
neighbor id in the edge list. -/
theorem c9_witness :
    add_edge [(to_id get_start_board, newNode get_start_board)]
        get_start_board get_solved_board fakeMove =
      some [(to_id get_start_board,
        { newNode get_start_board with edges := [⟨to_id get_solved_board, fakeMove⟩] })] ∧
    lookupNode [(to_id get_start_board, newNode get_start_board)]
      (to_id get_solved_board) = none := by
  constructor
  · rw [(c9_add_edge_panic_iff [(to_id get_start_board, newNode get_start_board)]
      get_start_board get_solved_board fakeMove).2 (newNode get_start_board) (by decide)]
    decide
  · decide

/-! ## Claim C10 — boards are maintained in canonical sorted order -/

/-- C10: the boards produced by `get_start_board`, `get_solved_board` and
every successful `make_move` have their piece arrays sorted ascending by
position then size, while `to_id` itself performs no sorting — permuting a
piece array can change the id — so the permutation-invariance of `BoardId`
rests solely on this maintained canonical order. -/
theorem c10_canonical_order :
    List.Sorted PieceLe get_start_board.pieces ∧
    List.Sorted PieceLe get_solved_board.pieces ∧
    (∀ (b : Board) (mv : SlideMove) (b' : Board),
      make_move b mv = Except.ok b' → List.Sorted PieceLe b'.pieces) ∧
    (∃ b1 b2 : Board, b1.size = b2.size ∧ List.Perm b1.pieces b2.pieces ∧
      to_id b1 ≠ to_id b2) := by
  refine ⟨by decide, by decide, ?_, ?_⟩
  · intro b mv b' h
    obtain ⟨ps, _, rfl, _⟩ := make_move_ok_shape b mv b' h
    exact sortPieces_sorted ps
  · exact ⟨get_start_board, startPermBoard, by decide, by decide, by decide⟩

/-- The board produced by sliding the start board's bottom-left 1×1 piece
one cell to the right (used as a concrete witness input). -/
def startMovedBoard : Board :=
  ⟨SIZE, [
    ⟨⟨0, 1⟩, ⟨1, 2⟩⟩,
    ⟨⟨0, 3⟩, ⟨1, 2⟩⟩,
    ⟨⟨1, 0⟩, ⟨1, 1⟩⟩,
    ⟨⟨1, 1⟩, ⟨1, 1⟩⟩,
    ⟨⟨1, 2⟩, ⟨2, 1⟩⟩,
    ⟨⟨1, 3⟩, ⟨2, 2⟩⟩,
    ⟨⟨2, 1⟩, ⟨1, 1⟩⟩,
    ⟨⟨3, 0⟩, ⟨1, 1⟩⟩,
    ⟨⟨3, 1⟩, ⟨1, 2⟩⟩,
    ⟨⟨3, 3⟩, ⟨1, 2⟩⟩]⟩

/-- C10 witness: the `make_move` clause applied to a concrete successful
move on the start board. -/
theorem c10_witness : List.Sorted PieceLe startMovedBoard.pieces :=
  c10_canonical_order.2.2.1 get_start_board ⟨⟨0, 0⟩, SlideDirection.Right, 1⟩
    startMovedBoard (by decide)

/-! ## Claim C3 — `get_valid_moves` collects maximal success prefixes -/

/-- Modelled from the spec's wording: for one piece and direction, the
maximal prefix of the distance range on which the attempt succeeds, each
success mapped to its `(SlideMove, Board)` result. -/
def successRun (b : Board) (p : Piece) (dir : SlideDirection) :
    List (SlideMove × Board) :=
  ((distanceRange b).takeWhile fun d => (move_piece b p dir d).isSome).filterMap
    (move_piece b p dir)

/-- Modelled from the spec's wording: the success prefixes concatenated in
piece-then-direction order. -/
def get_valid_moves_spec (b : Board) : List (SlideMove × Board) :=
  b.pieces.flatMap fun p => dirOrder.flatMap fun dir => successRun b p dir

theorem mapWhileAux_eq_takeWhile {α : Type} (f : Nat → Option α) (l : List Nat) :
    mapWhileAux f l =
      (l.takeWhile fun d => (f d).isSome).filterMap f := by
  induction l with
  | nil => rfl
  | cons d rest ih =>
    cases hf : f d with
    | none => simp [mapWhileAux, hf, List.takeWhile_cons]
    | some a => simp [mapWhileAux, hf, List.takeWhile_cons, ih]

theorem head_dropWhile_false {α : Type} (p : α → Bool) (l : List α) (d : α)
    (h : (l.dropWhile p).head? = some d) : p d = false := by
  induction l with
  | nil => simp [List.dropWhile] at h
  | cons a rest ih =>
    by_cases hp : p a = true
    · rw [List.dropWhile_cons_of_pos hp] at h
      exact ih h
    · rw [List.dropWhile_cons_of_neg hp] at h
      simp only [List.head?_cons, Option.some.injEq] at h
      subst h
      simpa using hp

theorem move_piece_isSome_iff (b : Board) (p : Piece) (dir : SlideDirection)
    (d : Nat) :
    (move_piece b p dir d).isSome = (make_move b ⟨p.position, dir, d⟩).isOk := by
  unfold move_piece
  cases hmm : make_move b ⟨p.position, dir, d⟩ <;>
    simp [hmm, Except.isOk, Except.toBool]

/-- C3: `get_valid_moves` returns, for each piece in stored order and each
direction in order Up, Down, Left, Right, exactly the results of the
maximal prefix of distances 1, 2, … (within the range bounded by the larger
board dimension) on which `make_move` succeeds — every distance in the
collected prefix succeeds, and the first distance after the prefix (when
the range is not exhausted) fails, so no distance beyond a failure is ever
included — concatenated in piece-then-direction-then-increasing-distance
order. -/
theorem c3_valid_moves_are_success_prefixes (b : Board) :
    get_valid_moves b = get_valid_moves_spec b ∧
    (∀ p dir d, d ∈ (distanceRange b).takeWhile
        (fun d => (move_piece b p dir d).isSome) →
      (make_move b ⟨p.position, dir, d⟩).isOk = true) ∧
    (∀ p dir d, ((distanceRange b).dropWhile
        (fun d => (move_piece b p dir d).isSome)).head? = some d →
      (make_move b ⟨p.position, dir, d⟩).isOk = false) := by
  refine ⟨?_, ?_, ?_⟩
  · unfold get_valid_moves get_valid_moves_spec successRun
    simp only [mapWhileAux_eq_takeWhile]
  · intro p dir d hd
    have := List.takeWhile_subset (l := distanceRange b)
      (p := fun d => (move_piece b p dir d).isSome)
    have hsome := List.mem_takeWhile_imp hd
    rw [move_piece_isSome_iff] at hsome
    exact hsome
  · intro p dir d hd
    have hfail := head_dropWhile_false _ _ _ hd
    rw [move_piece_isSome_iff] at hfail
    exact hfail

/-- C3 witness: on the start board the bottom-left 1×1 piece slides right by
1 and 2 but not 3 — the first distance past the collected prefix fails. -/
theorem c3_witness :
    (make_move get_start_board ⟨⟨0, 0⟩, SlideDirection.Right, 2⟩).isOk = true ∧
    (make_move get_start_board ⟨⟨0, 0⟩, SlideDirection.Right, 3⟩).isOk = false :=
  ⟨(c3_valid_moves_are_success_prefixes get_start_board).2.1
      ⟨⟨0, 0⟩, ⟨1, 1⟩⟩ SlideDirection.Right 2 (by decide),
   (c3_valid_moves_are_success_prefixes get_start_board).2.2
      ⟨⟨0, 0⟩, ⟨1, 1⟩⟩ SlideDirection.Right 3 (by decide)⟩

/-! ## Claim C5 — total correctness envelope of `make_move` -/

theorem moveFirst_eq_none_iff (l : List Piece) (st tgt : Coordinates) :
    moveFirst l st tgt = none ↔ ∀ p ∈ l, p.position ≠ st := by
  induction l with
  | nil => simp [moveFirst]
  | cons p rest ih =>
    by_cases hp : p.position = st
    · simp [moveFirst, hp]
    · simp [moveFirst, hp, ih]

/-- C5: `make_move` either returns a fully valid board — every piece in
bounds, no collision, pieces re-sorted into canonical order, same board
size — or an error: `noPieceAtStart` when no piece sits at the move's
start, `invalidMove` when the moved, re-sorted arrangement fails
validation.  The input board is never mutated: the embedding is a pure
function of `(b, mv)` and the source operates on a copy, so no partial
mutation is observable on failure. -/
theorem c5_make_move_envelope (b : Board) (mv : SlideMove) :
    (∀ b', make_move b mv = Except.ok b' →
      is_valid b' = true ∧ List.Sorted PieceLe b'.pieces ∧ b'.size = b.size) ∧
    ((¬ ∃ p ∈ b.pieces, p.position = mv.start) →
      make_move b mv = Except.error MoveError.noPieceAtStart) ∧
    (∀ ps, moveFirst b.pieces mv.start mv.get_endpoint = some ps →
      is_valid ⟨b.size, sortPieces ps⟩ = false →
      make_move b mv = Except.error MoveError.invalidMove) ∧
    ((∃ b', make_move b mv = Except.ok b') ∨
      (∃ e, make_move b mv = Except.error e)) := by
  refine ⟨?_, ?_, ?_, ?_⟩
  · intro b' h
    obtain ⟨ps, _, rfl, hv⟩ := make_move_ok_shape b mv b' h
    exact ⟨hv, sortPieces_sorted ps, rfl⟩
  · intro h
    have hnone : moveFirst b.pieces mv.start mv.get_endpoint = none := by
      rw [moveFirst_eq_none_iff]
      intro p hp hpos
      exact h ⟨p, hp, hpos⟩
    unfold make_move
    rw [hnone]
  · intro ps hm hv
    unfold make_move
    rw [hm]
    dsimp only
    rw [if_neg (by simp [hv])]
  · cases h : make_move b mv with
    | ok b' => exact Or.inl ⟨b', rfl⟩
    | error e => exact Or.inr ⟨e, rfl⟩

/-- C5 witness: the success clause applied to a concrete legal move, and
the no-piece clause applied to a concrete empty start square. -/
theorem c5_witness :
    (is_valid startMovedBoard = true ∧
      List.Sorted PieceLe startMovedBoard.pieces ∧
      startMovedBoard.size = get_start_board.size) ∧
    make_move get_start_board ⟨⟨2, 0⟩, SlideDirection.Up, 1⟩ =
      Except.error MoveError.noPieceAtStart :=
  ⟨(c5_make_move_envelope get_start_board ⟨⟨0, 0⟩, SlideDirection.Right, 1⟩).1
      startMovedBoard (by decide),
   (c5_make_move_envelope get_start_board ⟨⟨2, 0⟩, SlideDirection.Up, 1⟩).2.1
      (by decide)⟩

/-! ## Claim C4 — failure at distance d does not propagate to d' > d -/

/-- A valid board of ten 1×1 pieces: one at (0,0), an obstacle at (1,0),
the cell (2,0) free, the rest parked on rows 1 and 2. -/
def jumpBoard : Board :=
  ⟨SIZE, [
    ⟨⟨0, 0⟩, ⟨1, 1⟩⟩,
    ⟨⟨0, 1⟩, ⟨1, 1⟩⟩,
    ⟨⟨0, 2⟩, ⟨1, 1⟩⟩,
    ⟨⟨1, 0⟩, ⟨1, 1⟩⟩,
    ⟨⟨1, 1⟩, ⟨1, 1⟩⟩,
    ⟨⟨1, 2⟩, ⟨1, 1⟩⟩,
    ⟨⟨2, 1⟩, ⟨1, 1⟩⟩,
    ⟨⟨2, 2⟩, ⟨1, 1⟩⟩,
    ⟨⟨3, 1⟩, ⟨1, 1⟩⟩,
    ⟨⟨3, 2⟩, ⟨1, 1⟩⟩]⟩

/-- C4, counterexample: `make_move` validates only the final position, so
on a valid board the 1×1 piece at (0,0) fails to slide right by 1 (the cell
(1,0) is occupied) yet succeeds sliding right by 2 (landing on the free
cell (2,0) beyond the obstacle) — failure at distance d does not imply
failure at d' > d. -/
theorem c4_counterexample :
    is_valid jumpBoard = true ∧
    (⟨⟨0, 0⟩, ⟨1, 1⟩⟩ : Piece) ∈ jumpBoard.pieces ∧
    (make_move jumpBoard ⟨⟨0, 0⟩, SlideDirection.Right, 1⟩).isOk = false ∧
    (make_move jumpBoard ⟨⟨0, 0⟩, SlideDirection.Right, 2⟩).isOk = true := by
  decide

/-- `find(|p| p.position == start)` on the piece array. -/
def findPieceAt (l : List Piece) (st : Coordinates) : Option Piece :=
  l.find? fun p => decide (p.position = st)

theorem moveFirst_of_find (l : List Piece) (st tgt : Coordinates) (p : Piece)
    (h : findPieceAt l st = some p) :
    ∃ l1 l2, l = l1 ++ p :: l2 ∧ p.position = st ∧
      moveFirst l st tgt = some (l1 ++ ⟨tgt, p.size⟩ :: l2) := by
  induction l with
  | nil => simp [findPieceAt] at h
  | cons q rest ih =>
    by_cases hq : q.position = st
    · have hp : p = q := by
        simp [findPieceAt, List.find?_cons, hq] at h
        exact h.symm
      subst hp
      exact ⟨[], rest, rfl, hq, by simp [moveFirst, hq]⟩
    · have h' : findPieceAt rest st = some p := by
        simpa [findPieceAt, List.find?_cons, hq] using h
      obtain ⟨l1, l2, hdec, hpos, hmf⟩ := ih h'
      refine ⟨q :: l1, l2, by rw [hdec]; rfl, hpos, ?_⟩
      simp [moveFirst, hq, hmf]

/-- `is_on_board` only reads the board's size, not its piece list. -/
theorem is_on_board_size (p : Piece) (s : Size) (l l' : List Piece) :
    is_on_board p ⟨s, l⟩ = is_on_board p ⟨s, l'⟩ := rfl

/-- Out-of-bounds is monotone in the slide distance: a piece that starts on
the board and leaves it at distance d is also off the board at any d' > d
in the same direction. -/
theorem oob_monotone (b : Board) (p : Piece) (st : Coordinates)
    (dir : SlideDirection) (d d' : Nat) (hdd : d < d') (hst : p.position = st)
    (hon : is_on_board p b = true)
    (hoob : is_on_board ⟨SlideMove.get_endpoint ⟨st, dir, d⟩, p.size⟩ b = false) :
    is_on_board ⟨SlideMove.get_endpoint ⟨st, dir, d'⟩, p.size⟩ b = false := by
  subst hst
  cases dir <;>
    (simp only [is_on_board, SlideMove.get_endpoint, decide_eq_true_eq,
      decide_eq_false_iff_not] at * <;> omega)

/-- A board with a member piece off the board is invalid. -/
theorem invalid_of_off_board (s : Size) (l : List Piece) (p : Piece)
    (hp : p ∈ l) (hoff : is_on_board p ⟨s, l⟩ = false) :
    is_valid ⟨s, l⟩ = false := by
  cases hval : is_valid ⟨s, l⟩ with
  | false => rfl
  | true =>
    unfold is_valid at hval
    rw [Bool.and_eq_true] at hval
    rw [List.all_eq_true] at hval
    have := hval.1 p hp
    rw [hoff] at this
    cases this

/-- `make_move` fails whenever the slide carries the found piece off the
board. -/
theorem make_move_fails_off_board (b : Board) (st : Coordinates)
    (dir : SlideDirection) (d : Nat) (p : Piece)
    (hfind : findPieceAt b.pieces st = some p)
    (hoob : is_on_board ⟨SlideMove.get_endpoint ⟨st, dir, d⟩, p.size⟩ b = false) :
    (make_move b ⟨st, dir, d⟩).isOk = false := by
  obtain ⟨l1, l2, hdec, hpos, hmf⟩ :=
    moveFirst_of_find b.pieces st (SlideMove.get_endpoint ⟨st, dir, d⟩) p hfind
  unfold make_move
  rw [hmf]
  dsimp only
  have hmem : (⟨SlideMove.get_endpoint ⟨st, dir, d⟩, p.size⟩ : Piece) ∈
      sortPieces (l1 ++ ⟨SlideMove.get_endpoint ⟨st, dir, d⟩, p.size⟩ :: l2) :=
    (sortPieces_perm _).mem_iff.2 (by simp)
  have hinv : is_valid ⟨b.size,
      sortPieces (l1 ++ ⟨SlideMove.get_endpoint ⟨st, dir, d⟩, p.size⟩ :: l2)⟩ = false := by
    apply invalid_of_off_board _ _ _ hmem
    rw [is_on_board_size _ _ _ b.pieces]
    cases b
    exact hoob
  rw [if_neg (by simp [hinv])]
  rfl

/-- C4 (amended): the monotone part of the claim holds only for
out-of-bounds failures — for a valid board, if the slide of the found piece
by distance d leaves the board, then `make_move` fails at d and at every
d' > d in that direction.  A failure caused by a collision does NOT imply
failure at larger distances, because only the final position is validated
(see the counterexample, where distance 1 collides but distance 2 lands
beyond the obstacle). -/
theorem c4_oob_failures_monotone (b : Board) (st : Coordinates)
    (dir : SlideDirection) (d d' : Nat) (p : Piece)
    (hval : is_valid b = true) (hd : 0 < d) (hdd : d < d')
    (hfind : findPieceAt b.pieces st = some p)
    (hoob : is_on_board ⟨SlideMove.get_endpoint ⟨st, dir, d⟩, p.size⟩ b = false) :
    (make_move b ⟨st, dir, d⟩).isOk = false ∧
    (make_move b ⟨st, dir, d'⟩).isOk = false := by
  have hmem : p ∈ b.pieces := List.mem_of_find?_eq_some hfind
  have hpos : p.position = st := by
    have := List.find?_some hfind
    simpa [findPieceAt] using List.find?_some hfind
  have hon : is_on_board p b = true := by
    unfold is_valid at hval
    rw [Bool.and_eq_true, List.all_eq_true] at hval
    exact hval.1 p hmem
  refine ⟨make_move_fails_off_board b st dir d p hfind hoob, ?_⟩
  exact make_move_fails_off_board b st dir d' p hfind
    (oob_monotone b p st dir d d' hdd hpos hon hoob)

/-- C4 witness: sliding the (0,0) piece of the jump board right by 4 leaves
the board, hence so does every longer slide, and both moves fail. -/
theorem c4_witness :
    (make_move jumpBoard ⟨⟨0, 0⟩, SlideDirection.Right, 4⟩).isOk = false ∧
    (make_move jumpBoard ⟨⟨0, 0⟩, SlideDirection.Right, 7⟩).isOk = false :=
  c4_oob_failures_monotone jumpBoard ⟨0, 0⟩ SlideDirection.Right 4 7
    ⟨⟨0, 0⟩, ⟨1, 1⟩⟩ (by decide) (by decide) (by decide) (by decide) (by decide)

/-! ## Claim C8 — round-trip of a legal move and its inverse -/

/-- The opposite cartesian direction. -/
def opposite : SlideDirection → SlideDirection
  | .Up => .Down
  | .Down => .Up
  | .Left => .Right
  | .Right => .Left

/-- The inverse of a slide move: same distance, opposite direction, started
from the moved piece's new position. -/
def inverseMove (mv : SlideMove) : SlideMove :=
  ⟨mv.get_endpoint, opposite mv.direction, mv.distance⟩

theorem inverse_endpoint (mv : SlideMove) :
    (inverseMove mv).get_endpoint = mv.start := by
  obtain ⟨⟨x, y⟩, dir, d⟩ := mv
  cases dir <;>
    simp [inverseMove, opposite, SlideMove.get_endpoint, Coordinates.mk.injEq]

theorem collide_symm (a b : Piece) : collide a b = collide b a := by
  simp only [collide, decide_eq_decide]
  omega

theorem has_collision_false_iff (l : List Piece) :
    has_collision l = false ↔ l.Pairwise fun a b => collide a b = false := by
  induction l with
  | nil => simp [has_collision]
  | cons p rest ih =>
    simp [has_collision, List.pairwise_cons, ih, List.any_eq_false]

/-- Validity only depends on the multiset of pieces. -/
theorem is_valid_perm (s : Size) (l l' : List Piece) (hp : List.Perm l l') :
    is_valid ⟨s, l⟩ = is_valid ⟨s, l'⟩ := by
  unfold is_valid
  have hall : (l.all fun p => is_on_board p ⟨s, l⟩) =
      (l'.all fun p => is_on_board p ⟨s, l'⟩) := by
    cases hb : l'.all fun p => is_on_board p ⟨s, l'⟩ with
    | true =>
      rw [List.all_eq_true] at hb ⊢
      intro p hpl
      exact hb p (hp.mem_iff.1 hpl)
    | false =>
      rw [Bool.eq_false_iff] at hb ⊢
      intro hcon
      apply hb
      rw [List.all_eq_true] at hcon ⊢
      intro p hpl
      exact hcon p (hp.mem_iff.2 hpl)
  have hcol : has_collision l = has_collision l' := by
    have hsym : ∀ {x y : Piece}, collide x y = false → collide y x = false := by
      intro x y h
      rw [collide_symm]
      exact h
    cases hc : has_collision l' with
    | false =>
      rw [(has_collision_false_iff l).2
        ((List.Perm.pairwise_iff hsym hp).2 ((has_collision_false_iff l').1 hc))]
    | true =>
      cases hcl : has_collision l with
      | true => rfl
      | false =>
        rw [← hc]
        rw [(has_collision_false_iff l').2
          ((List.Perm.pairwise_iff hsym hp).1 ((has_collision_false_iff l).1 hcl))]
  rw [hall, hcol]

/-- All piece sizes strictly positive (the data-model invariant). -/
def sizesPositive (b : Board) : Prop :=
  ∀ p ∈ b.pieces, 0 < p.size.x ∧ 0 < p.size.y

instance (b : Board) : Decidable (sizesPositive b) := by
  unfold sizesPositive
  exact inferInstance

/-- On a valid board with positive piece sizes the piece positions are
pairwise distinct. -/
theorem positions_pairwise_ne (b : Board) (hval : is_valid b = true)
    (hpos : sizesPositive b) :
    b.pieces.Pairwise fun p q => p.position ≠ q.position := by
  have hcoll : b.pieces.Pairwise fun p q => collide p q = false := by
    unfold is_valid at hval
    rw [Bool.and_eq_true] at hval
    have := hval.2
    rw [Bool.not_eq_true'] at this
    exact (has_collision_false_iff b.pieces).1 this
  refine List.Pairwise.imp_of_mem ?_ hcoll
  intro p q hp hq hc heq
  obtain ⟨hx, hy⟩ := hpos p hp
  obtain ⟨hx', hy'⟩ := hpos q hq
  rw [Bool.eq_false_iff] at hc
  apply hc
  simp only [collide, decide_eq_true_eq]
  rw [heq]
  omega

theorem unique_at_position (l : List Piece)
    (hpw : l.Pairwise fun p q => p.position ≠ q.position)
    (p q : Piece) (hp : p ∈ l) (hq : q ∈ l)
    (heq : p.position = q.position) : p = q := by
  by_contra hne
  have hsym : Symmetric fun x y : Piece => x.position ≠ y.position := by
    intro a b h hh
    exact h hh.symm
  exact List.Pairwise.forall hsym hpw hp hq hne heq

theorem moveFirst_some_shape (l : List Piece) (st tgt : Coordinates)
    (ps : List Piece) (h : moveFirst l st tgt = some ps) :
    ∃ l1 p l2, l = l1 ++ p :: l2 ∧ p.position = st ∧
      ps = l1 ++ ⟨tgt, p.size⟩ :: l2 := by
  induction l generalizing ps with
  | nil => simp [moveFirst] at h
  | cons q rest ih =>
    by_cases hq : q.position = st
    · rw [moveFirst, if_pos hq] at h
      exact ⟨[], q, rest, rfl, hq, (Option.some.inj h).symm⟩
    · rw [moveFirst, if_neg hq] at h
      cases hr : moveFirst rest st tgt with
      | none => rw [hr] at h; cases h
      | some ps' =>
        rw [hr] at h
        obtain ⟨l1, p, l2, hdec, hpos, hps⟩ := ih ps' hr
        refine ⟨q :: l1, p, l2, by rw [hdec]; rfl, hpos, ?_⟩
        have : ps = q :: ps' := (Option.some.inj h).symm
        rw [this, hps]
        rfl

/-- C8, counterexample: on an (invalid) board with two overlapping 1×1
pieces at (0,0), sliding one of them right by 1 is a legal move (the result
is fully valid), but the inverse move fails — it would land back on the
still-occupied cell — so the round-trip property does not hold for every
board, only for valid ones. -/
def overlapBoard : Board :=
  ⟨SIZE, [
    ⟨⟨0, 0⟩, ⟨1, 1⟩⟩,
    ⟨⟨0, 0⟩, ⟨1, 1⟩⟩,
    ⟨⟨0, 1⟩, ⟨1, 1⟩⟩,
    ⟨⟨0, 2⟩, ⟨1, 1⟩⟩,
    ⟨⟨1, 1⟩, ⟨1, 1⟩⟩,
    ⟨⟨1, 2⟩, ⟨1, 1⟩⟩,
    ⟨⟨2, 1⟩, ⟨1, 1⟩⟩,
    ⟨⟨2, 2⟩, ⟨1, 1⟩⟩,
    ⟨⟨3, 1⟩, ⟨1, 1⟩⟩,
    ⟨⟨3, 2⟩, ⟨1, 1⟩⟩]⟩

/-- The board obtained from `overlapBoard` by the legal slide of the first
(0,0) piece one cell to the right. -/
def overlapMovedBoard : Board :=
  ⟨SIZE, [
    ⟨⟨0, 0⟩, ⟨1, 1⟩⟩,
    ⟨⟨0, 1⟩, ⟨1, 1⟩⟩,
    ⟨⟨0, 2⟩, ⟨1, 1⟩⟩,
    ⟨⟨1, 0⟩, ⟨1, 1⟩⟩,
    ⟨⟨1, 1⟩, ⟨1, 1⟩⟩,
    ⟨⟨1, 2⟩, ⟨1, 1⟩⟩,
    ⟨⟨2, 1⟩, ⟨1, 1⟩⟩,
    ⟨⟨2, 2⟩, ⟨1, 1⟩⟩,
    ⟨⟨3, 1⟩, ⟨1, 1⟩⟩,
    ⟨⟨3, 2⟩, ⟨1, 1⟩⟩]⟩

/-- C8, counterexample theorem: the move is legal but its inverse errors. -/
theorem c8_counterexample :
    make_move overlapBoard ⟨⟨0, 0⟩, SlideDirection.Right, 1⟩ =
      Except.ok overlapMovedBoard ∧
    make_move overlapMovedBoard (inverseMove ⟨⟨0, 0⟩, SlideDirection.Right, 1⟩) =
      Except.error MoveError.invalidMove := by
  constructor
  · decide
  · decide

/-- C8 (amended): for every VALID board with positive piece sizes and every
move legal on it, the inverse move (same distance, opposite direction,
started from the moved piece's new position) is legal on the resulting
board and restores a board piece-set-equal (piece-multiset-equal) to the
original. -/
theorem c8_roundtrip (b : Board) (mv : SlideMove) (b2 : Board)
    (hval : is_valid b = true) (hpos : sizesPositive b)
    (h : make_move b mv = Except.ok b2) :
    ∃ b3, make_move b2 (inverseMove mv) = Except.ok b3 ∧
      List.Perm b3.pieces b.pieces ∧ b3.size = b.size := by
  obtain ⟨ps, hmf, hb2, hv2⟩ := make_move_ok_shape b mv b2 h
  obtain ⟨l1, p, l2, hdec, hpstart, hps⟩ := moveFirst_some_shape _ _ _ _ hmf
  -- the moved piece and its membership in the new board
  have hmoved_ps : (⟨mv.get_endpoint, p.size⟩ : Piece) ∈ ps := by
    rw [hps]; simp
  have hb2pieces : b2.pieces = sortPieces ps := by rw [hb2]
  have hb2size : b2.size = b.size := by rw [hb2]
  have hperm_ps : List.Perm b2.pieces ps := by
    rw [hb2pieces]; exact sortPieces_perm ps
  have hmoved_b2 : (⟨mv.get_endpoint, p.size⟩ : Piece) ∈ b2.pieces :=
    hperm_ps.mem_iff.2 hmoved_ps
  -- positivity carries over to the new board
  have hmem_p : p ∈ b.pieces := by rw [hdec]; simp
  have hpos2 : sizesPositive b2 := by
    intro q hq
    have hq_ps : q ∈ ps := hperm_ps.mem_iff.1 hq
    rw [hps] at hq_ps
    rcases List.mem_append.1 hq_ps with h1 | h2
    · exact hpos q (by rw [hdec]; exact List.mem_append.2 (Or.inl h1))
    · rcases List.mem_cons.1 h2 with rfl | h3
      · exact hpos p hmem_p
      · exact hpos q (by rw [hdec]; simp [h3])
  -- positions in the new board are pairwise distinct
  have hval2 : is_valid b2 = true := by rw [hb2]; exact hv2
  have hpw2 : b2.pieces.Pairwise fun x y => x.position ≠ y.position :=
    positions_pairwise_ne b2 hval2 hpos2
  -- the inverse move finds a piece (the moved one) at its start
  have hfound : moveFirst b2.pieces mv.get_endpoint mv.start ≠ none := by
    rw [Ne, moveFirst_eq_none_iff]
    intro hall
    exact hall _ hmoved_b2 rfl
  cases hmf2 : moveFirst b2.pieces mv.get_endpoint mv.start with
  | none => exact absurd hmf2 hfound
  | some ps2 =>
    obtain ⟨L1, q, L2, hdec2, hqpos, hps2⟩ := moveFirst_some_shape _ _ _ _ hmf2
    -- the found piece is the moved piece
    have hq_b2 : q ∈ b2.pieces := by rw [hdec2]; simp
    have hq_eq : q = ⟨mv.get_endpoint, p.size⟩ :=
      unique_at_position b2.pieces hpw2 q ⟨mv.get_endpoint, p.size⟩ hq_b2
        hmoved_b2 hqpos
    -- the replaced piece is the original piece
    have hback : (⟨mv.start, q.size⟩ : Piece) = p := by
      rw [hq_eq]
      obtain ⟨pp, psz⟩ := p
      simp only at hpstart
      rw [hpstart]
    -- multiset bookkeeping: the round trip restores b's pieces
    have hperm1 : List.Perm ps2 (p :: (L1 ++ L2)) := by
      rw [hps2, hback]
      exact List.perm_middle
    have hperm2 : List.Perm b2.pieces
        ((⟨mv.get_endpoint, p.size⟩ : Piece) :: (L1 ++ L2)) := by
      rw [hdec2, hq_eq]
      exact List.perm_middle
    have hperm3 : List.Perm b2.pieces
        ((⟨mv.get_endpoint, p.size⟩ : Piece) :: (l1 ++ l2)) := by
      refine hperm_ps.trans ?_
      rw [hps]
      exact List.perm_middle
    have hLl : List.Perm (L1 ++ L2) (l1 ++ l2) :=
      List.Perm.cons_inv (hperm2.symm.trans hperm3)
    have hps2_b : List.Perm ps2 b.pieces := by
      refine hperm1.trans ?_
      rw [hdec]
      exact ((hLl.cons p).trans List.perm_middle.symm)
    -- the restored board is valid, so the inverse move succeeds
    have hvalid3 : is_valid ⟨b2.size, sortPieces ps2⟩ = true := by
      rw [hb2size]
      rw [is_valid_perm b.size (sortPieces ps2) b.pieces
        ((sortPieces_perm ps2).trans hps2_b)]
      obtain ⟨bs, bp⟩ := b
      exact hval
    refine ⟨⟨b2.size, sortPieces ps2⟩, ?_, ?_, ?_⟩
    · unfold make_move
      have hstart2 : (inverseMove mv).start = mv.get_endpoint := rfl
      rw [hstart2, inverse_endpoint, hmf2]
      dsimp only
      rw [if_pos hvalid3]
    · exact (sortPieces_perm ps2).trans hps2_b
    · exact hb2size

/-- C8 witness: the round trip through a concrete legal move on the
(valid, positive-size) start board. -/
theorem c8_witness :
    ∃ b3, make_move startMovedBoard (inverseMove ⟨⟨0, 0⟩, SlideDirection.Right, 1⟩) =
        Except.ok b3 ∧
      List.Perm b3.pieces get_start_board.pieces ∧ b3.size = get_start_board.size :=
  c8_roundtrip get_start_board ⟨⟨0, 0⟩, SlideDirection.Right, 1⟩ startMovedBoard
    (by decide) (by decide) (by decide)

/-! ## Claim C6 — synthetic solution edges around the solved anchor -/

theorem lookupNode_cons (k0 : BoardId) (n0 : Node) (g : GraphMap) (k : BoardId) :
    lookupNode ((k0, n0) :: g) k = if k0 = k then some n0 else lookupNode g k := rfl

theorem lookupNode_updateNode_self (g : GraphMap) (k : BoardId) (f : Node → Node) :
    lookupNode (updateNode g k f) k = (lookupNode g k).map f := by
  induction g with
  | nil => rfl
  | cons hd rest ih =>
    obtain ⟨k0, n0⟩ := hd
    by_cases hk : k0 = k
    · subst hk
      simp [updateNode, lookupNode]
    · simp [updateNode, lookupNode, hk, ih]

theorem lookupNode_updateNode_ne (g : GraphMap) (k k' : BoardId) (f : Node → Node)
    (h : k ≠ k') : lookupNode (updateNode g k f) k' = lookupNode g k' := by
  induction g with
  | nil => rfl
  | cons hd rest ih =>
    obtain ⟨k0, n0⟩ := hd
    by_cases hk : k0 = k
    · subst hk
      simp [updateNode, lookupNode, h, ih]
    · simp only [updateNode, if_neg hk, lookupNode]
      by_cases hk' : k0 = k'
      · simp [hk']
      · simp [hk', ih]

/-- Shape of a successful `add_edge`: the `from` node exists, only its edge
list changes (one appended entry), everything else is untouched. -/
theorem add_edge_some (g : GraphMap) (bf bt : Board) (mv : SlideMove)
    (g' : GraphMap) (h : add_edge g bf bt mv = some g') :
    (∀ k, k ≠ to_id bf → lookupNode g' k = lookupNode g k) ∧
    lookupNode g' (to_id bf) =
      (lookupNode g (to_id bf)).map
        (fun n => { n with edges := n.edges ++ [⟨to_id bt, mv⟩] }) := by
  unfold add_edge at h
  cases hl : lookupNode g (to_id bf) with
  | none => rw [hl] at h; cases h
  | some n0 =>
    rw [hl] at h
    obtain rfl := Option.some.inj h
    constructor
    · intro k hk
      exact lookupNode_updateNode_ne g (to_id bf) k _ (fun he => hk he.symm)
    · rw [lookupNode_updateNode_self, hl]

/-- Shape of a successful `add_node`: either the board's id is present with
an equal board (no-op), or the id is fresh and a new node is consed on. -/
theorem add_node_cases (g : GraphMap) (b : Board) (g1 : GraphMap)
    (h : add_node g b = some g1) :
    (∃ n, lookupNode g (to_id b) = some n ∧ n.board = b ∧ g1 = g) ∨
    (lookupNode g (to_id b) = none ∧ g1 = (to_id b, newNode b) :: g) := by
  unfold add_node at h
  cases hl : lookupNode g (to_id b) with
  | some entry =>
    rw [hl] at h
    dsimp only at h
    by_cases hb : entry.board = b
    · rw [if_pos hb] at h
      exact Or.inl ⟨entry, rfl, hb, (Option.some.inj h).symm⟩
    · rw [if_neg hb] at h
      cases h
  | none =>
    rw [hl] at h
    dsimp only at h
    exact Or.inr ⟨rfl, (Option.some.inj h).symm⟩

/-- Effect of the per-move `for_each` body run over a whole move list:
nodes other than the processed board's are untouched, the processed node
keeps its board and only gains edges, key presence is unchanged, and every
newly queued board was absent from the graph when pushed. -/
theorem processMoves_some (b : Board) :
    ∀ (moves : List (SlideMove × Board)) (g : GraphMap) (q : List Board)
      (g' : GraphMap) (q' : List Board),
      processMoves b g q moves = some (g', q') →
      (∀ k, k ≠ to_id b → lookupNode g' k = lookupNode g k) ∧
      (∀ n, lookupNode g (to_id b) = some n → ∃ n', lookupNode g' (to_id b) = some n' ∧
        n'.board = n.board ∧ ∀ e ∈ n.edges, e ∈ n'.edges) ∧
      (∀ k, (lookupNode g' k).isSome = (lookupNode g k).isSome) ∧
      (∀ b' ∈ q', b' ∈ q ∨ (lookupNode g (to_id b')).isSome = false) := by
  intro moves
  induction moves with
  | nil =>
    intro g q g' q' h
    obtain ⟨rfl, rfl⟩ : g = g' ∧ q = q' := by
      unfold processMoves at h
      exact ⟨congrArg Prod.fst (Option.some.inj h),
        congrArg Prod.snd (Option.some.inj h)⟩
    exact ⟨fun k _ => rfl, fun n hn => ⟨n, hn, rfl, fun e he => he⟩,
      fun k => rfl, fun b' hb' => Or.inl hb'⟩
  | cons hdmv rest ih =>
    intro g q g' q' h
    obtain ⟨mv, nb⟩ := hdmv
    unfold processMoves at h
    cases ha : add_edge g b nb mv with
    | none => rw [ha] at h; cases h
    | some g2 =>
      rw [ha] at h
      obtain ⟨hne, hself⟩ := add_edge_some g b nb mv g2 ha
      obtain ⟨ih1, ih2, ih3, ih4⟩ := ih g2 _ g' q' h
      have hsome2 : ∀ k, (lookupNode g2 k).isSome = (lookupNode g k).isSome := by
        intro k
        by_cases hk : k = to_id b
        · subst hk
          rw [hself]
          cases lookupNode g (to_id b) <;> rfl
        · rw [hne k hk]
      refine ⟨?_, ?_, ?_, ?_⟩
      · intro k hk
        rw [ih1 k hk, hne k hk]
      · intro n hn
        have h2 : lookupNode g2 (to_id b) =
            some { n with edges := n.edges ++ [⟨to_id nb, mv⟩] } := by
          rw [hself, hn]
          rfl
        obtain ⟨n', hn', hb', hsub⟩ := ih2 _ h2
        refine ⟨n', hn', hb', ?_⟩
        intro e he
        exact hsub e (by simp [he])
      · intro k
        rw [ih3 k, hsome2 k]
      · intro b' hb'
        rcases ih4 b' hb' with hq | habs
        · by_cases hpush : contains_node g nb = false ∧ nb ∉ q
          · rw [if_pos hpush] at hq
            rcases List.mem_cons.1 hq with rfl | hq'
            · exact Or.inr (by simpa [contains_node] using hpush.1)
            · exact Or.inl hq'
          · rw [if_neg hpush] at hq
            exact Or.inl hq
        · rw [hsome2 (to_id b')] at habs
          exact Or.inr habs

/-- The discovery-loop invariant for the solution edges: the solved anchor
is present with its own board and no self-edge, the anchor board is never
queued, and every node other than the anchor whose board is a solution
already carries both synthetic placeholder edges. -/
def C6Inv (g : GraphMap) (q : List Board) : Prop :=
  (∃ an, lookupNode g (to_id get_solved_board) = some an ∧
    an.board = get_solved_board ∧
    ∀ e ∈ an.edges, e.neighbor ≠ to_id get_solved_board) ∧
  (∀ x ∈ q, x ≠ get_solved_board) ∧
  (∀ k n, lookupNode g k = some n → k ≠ to_id get_solved_board →
    is_solution n.board = true →
    (∃ e ∈ n.edges, e.neighbor = to_id get_solved_board ∧
      e.slide_move = fakeMove) ∧
    (∃ an, lookupNode g (to_id get_solved_board) = some an ∧
      ∃ e ∈ an.edges, e.neighbor = k ∧ e.slide_move = fakeMove))

theorem solverStep_inv (g : GraphMap) (q : List Board) (b : Board)
    (g' : GraphMap) (q' : List Board)
    (h : solverStep g q b = some (g', q'))
    (hb : b ≠ get_solved_board) (hinv : C6Inv g q) : C6Inv g' q' := by
  obtain ⟨⟨an, han, hanb, hanself⟩, hq, hsol⟩ := hinv
  unfold solverStep at h
  cases h1 : add_node g b with
  | none => rw [h1] at h; cases h
  | some g1 =>
    rw [h1] at h
    dsimp only at h
    have hid : to_id b ≠ to_id get_solved_board := by
      rcases add_node_cases g b g1 h1 with ⟨n, hn, hnb, _⟩ | ⟨hnone, _⟩
      · intro he
        rw [he, han] at hn
        have : an = n := Option.some.inj hn
        apply hb
        rw [← hnb, ← this, hanb]
      · intro he
        rw [he, han] at hnone
        cases hnone
    have hg1ne : ∀ k, k ≠ to_id b → lookupNode g1 k = lookupNode g k := by
      rcases add_node_cases g b g1 h1 with ⟨n, hn, hnb, rfl⟩ | ⟨hnone, rfl⟩
      · intro k _; rfl
      · intro k hk
        rw [lookupNode_cons, if_neg (fun he => hk he.symm)]
    have hg1b : ∃ nb0, lookupNode g1 (to_id b) = some nb0 ∧ nb0.board = b := by
      rcases add_node_cases g b g1 h1 with ⟨n, hn, hnb, rfl⟩ | ⟨hnone, rfl⟩
      · exact ⟨n, hn, hnb⟩
      · refine ⟨newNode b, ?_, rfl⟩
        rw [lookupNode_cons, if_pos rfl]
    have hg1old : ∀ k n, lookupNode g k = some n → lookupNode g1 k = some n := by
      rcases add_node_cases g b g1 h1 with ⟨n, hn, hnb, rfl⟩ | ⟨hnone, rfl⟩
      · intro k n hk; exact hk
      · intro k n hk
        rw [lookupNode_cons]
        by_cases hkb : to_id b = k
        · rw [← hkb] at hk
          rw [hnone] at hk
          cases hk
        · rw [if_neg hkb]
          exact hk
    cases h2 : processMoves b g1 q (get_valid_moves b) with
    | none => rw [h2] at h; cases h
    | some gq2 =>
      obtain ⟨g2, q2⟩ := gq2
      rw [h2] at h
      dsimp only at h
      obtain ⟨hp1, hp2, hp3, hp4⟩ :=
        processMoves_some b (get_valid_moves b) g1 q g2 q2 h2
      have han1 : lookupNode g1 (to_id get_solved_board) = some an :=
        hg1old _ _ han
      have han2 : lookupNode g2 (to_id get_solved_board) = some an := by
        rw [hp1 _ (fun he => hid he.symm), han1]
      have hq2 : ∀ x ∈ q2, x ≠ get_solved_board := by
        intro x hx
        rcases hp4 x hx with hxq | habs
        · exact hq x hxq
        · intro hxA
          rw [hxA, han1] at habs
          cases habs
      obtain ⟨nb0, hnb0, hnb0b⟩ := hg1b
      obtain ⟨nb1, hnb1, hnb1b, hnb1e⟩ := hp2 nb0 hnb0
      have hnb1board : nb1.board = b := by rw [hnb1b, hnb0b]
      by_cases hsolb : is_solution b = true
      · rw [if_pos hsolb] at h
        cases h3 : add_edge g2 b get_solved_board fakeMove with
        | none => rw [h3] at h; cases h
        | some g3 =>
          rw [h3] at h
          dsimp only at h
          cases h4 : add_edge g3 get_solved_board b fakeMove with
          | none => rw [h4] at h; cases h
          | some g4 =>
            rw [h4] at h
            obtain ⟨rfl, rfl⟩ : g4 = g' ∧ q2 = q' :=
              ⟨congrArg Prod.fst (Option.some.inj h),
                congrArg Prod.snd (Option.some.inj h)⟩
            obtain ⟨h3ne, h3self⟩ := add_edge_some g2 b get_solved_board fakeMove g3 h3
            obtain ⟨h4ne, h4self⟩ := add_edge_some g3 get_solved_board b fakeMove g4 h4
            have han3 : lookupNode g3 (to_id get_solved_board) = some an := by
              rw [h3ne _ (fun he => hid he.symm), han2]
            have han4 : lookupNode g4 (to_id get_solved_board) =
                some { an with edges := an.edges ++ [⟨to_id b, fakeMove⟩] } := by
              rw [h4self, han3]
              rfl
            have hb3 : lookupNode g3 (to_id b) =
                some { nb1 with edges :=
                  nb1.edges ++ [⟨to_id get_solved_board, fakeMove⟩] } := by
              rw [h3self, hnb1]
              rfl
            have hb4 : lookupNode g4 (to_id b) =
                some { nb1 with edges :=
                  nb1.edges ++ [⟨to_id get_solved_board, fakeMove⟩] } := by
              rw [h4ne _ hid, hb3]
            refine ⟨⟨_, han4, hanb, ?_⟩, hq2, ?_⟩
            · intro e he
              rcases List.mem_append.1 he with hold | hnew
              · exact hanself e hold
              · rcases List.mem_singleton.1 hnew with rfl
                exact hid
            · intro k n hk hkne hksol
              by_cases hkb : k = to_id b
              · subst hkb
                rw [hb4] at hk
                obtain rfl := Option.some.inj hk
                refine ⟨⟨⟨to_id get_solved_board, fakeMove⟩, by simp, rfl, rfl⟩, ?_⟩
                exact ⟨_, han4, ⟨to_id b, fakeMove⟩, by simp, rfl, rfl⟩
              · have hkg : lookupNode g k = some n := by
                  rw [← hg1ne k hkb, ← hp1 k hkb, ← h3ne k hkb,
                    ← h4ne k hkne]
                  exact hk
                obtain ⟨hfwd, ⟨an0, han0, e0, he0, he0n, he0mv⟩⟩ :=
                  hsol k n hkg hkne hksol
                have : an = an0 := by
                  rw [han] at han0
                  exact Option.some.inj han0
                subst this
                refine ⟨hfwd, _, han4, e0, ?_, he0n, he0mv⟩
                exact List.mem_append.2 (Or.inl he0)
      · rw [if_neg hsolb] at h
        obtain ⟨rfl, rfl⟩ : g2 = g' ∧ q2 = q' :=
          ⟨congrArg Prod.fst (Option.some.inj h),
            congrArg Prod.snd (Option.some.inj h)⟩
        refine ⟨⟨an, han2, hanb, hanself⟩, hq2, ?_⟩
        intro k n hk hkne hksol
        by_cases hkb : k = to_id b
        · subst hkb
          rw [hnb1] at hk
          obtain rfl := Option.some.inj hk
          rw [hnb1board] at hksol
          exact absurd hksol hsolb
        · have hkg : lookupNode g k = some n := by
            rw [← hg1ne k hkb, ← hp1 k hkb]
            exact hk
          obtain ⟨hfwd, ⟨an0, han0, e0, he0, he0n, he0mv⟩⟩ :=
            hsol k n hkg hkne hksol
          have heq : an = an0 := by
            rw [han] at han0
            exact Option.some.inj han0
          subst heq
          exact ⟨hfwd, an, han2, e0, he0, he0n, he0mv⟩

theorem generate_moves_inv :
    ∀ (fuel : Nat) (g : GraphMap) (q : List Board) (gfin : GraphMap),
      C6Inv g q → generate_moves fuel g q = some gfin → C6Inv gfin [] := by
  intro fuel
  induction fuel with
  | zero =>
    intro g q gfin _ h
    cases h
  | succ n ih =>
    intro g q gfin hinv h
    cases q with
    | nil =>
      obtain rfl : g = gfin := Option.some.inj h
      exact hinv
    | cons b rest =>
      simp only [generate_moves] at h
      cases hs : solverStep g rest b with
      | none => rw [hs] at h; cases h
      | some gq =>
        obtain ⟨g2, q2⟩ := gq
        rw [hs] at h
        have hbA : b ≠ get_solved_board := hinv.2.1 b (List.mem_cons_self b rest)
        have hrest : C6Inv g rest :=
          ⟨hinv.1, fun x hx => hinv.2.1 x (List.mem_cons_of_mem b hx), hinv.2.2⟩
        exact ih g2 q2 gfin (solverStep_inv g rest b g2 q2 hs hbA hrest) h

/-- C6 (amended): the solver adds the solved-anchor node before discovery
(`solver_new` first runs `add_node` on the empty graph), a popped solution
board gets exactly the two synthetic edges board→anchor and anchor→board,
both labeled with the same fixed placeholder move, and in every finished
discovery graph — run from any initial queue that avoids the anchor board,
as the solver's `[get_start_board]` does — every node OTHER THAN THE ANCHOR
whose board satisfies
`is_solution` has an edge to the anchor's id and a matching back edge from
the anchor.  The anchor itself — whose board also satisfies `is_solution` —
never receives an edge to its own id (see the counterexample refuting the
claim's unrestricted "every node"). -/
theorem c6_solution_edges :
    (∀ fuel, solver_new fuel =
      match add_node [] get_solved_board with
      | none => none
      | some g0 =>
        match generate_moves fuel g0 [get_start_board] with
        | none => none
        | some g1 => analyze g1 get_start_board get_solved_board) ∧
    (add_node [] get_solved_board =
      some [(to_id get_solved_board, newNode get_solved_board)]) ∧
    (∀ g q b, is_solution b = true →
      solverStep g q b =
        match add_node g b with
        | none => none
        | some g1 =>
          match processMoves b g1 q (get_valid_moves b) with
          | none => none
          | some (g2, q2) =>
            match add_edge g2 b get_solved_board fakeMove with
            | none => none
            | some g3 =>
              match add_edge g3 get_solved_board b fakeMove with
              | none => none
              | some g4 => some (g4, q2)) ∧
    (∀ fuel (q0 : List Board) gfin, (∀ x ∈ q0, x ≠ get_solved_board) →
      generate_moves fuel [(to_id get_solved_board, newNode get_solved_board)]
          q0 = some gfin →
      (∀ k n, lookupNode gfin k = some n → k ≠ to_id get_solved_board →
        is_solution n.board = true →
        (∃ e ∈ n.edges, e.neighbor = to_id get_solved_board ∧
          e.slide_move = fakeMove) ∧
        (∃ an, lookupNode gfin (to_id get_solved_board) = some an ∧
          ∃ e ∈ an.edges, e.neighbor = k ∧ e.slide_move = fakeMove)) ∧
      (∃ an, lookupNode gfin (to_id get_solved_board) = some an ∧
        an.board = get_solved_board ∧
        ∀ e ∈ an.edges, e.neighbor ≠ to_id get_solved_board)) := by
  refine ⟨fun fuel => rfl, rfl, ?_, ?_⟩
  · intro g q b hbsol
    cases h1 : add_node g b with
    | none => simp [solverStep, h1]
    | some g1 =>
      cases h2 : processMoves b g1 q (get_valid_moves b) with
      | none => simp [solverStep, h1, h2]
      | some gq =>
        obtain ⟨g2, q2⟩ := gq
        simp [solverStep, h1, h2, hbsol]
  · intro fuel q0 gfin hq0 h
    have hinit : C6Inv [(to_id get_solved_board, newNode get_solved_board)]
        q0 := by
      refine ⟨⟨newNode get_solved_board, ?_, rfl, by simp [newNode]⟩, hq0, ?_⟩
      · rw [lookupNode_cons, if_pos rfl]
      · intro k n hk hkne _
        rw [lookupNode_cons] at hk
        by_cases haid : to_id get_solved_board = k
        · exact absurd haid.symm hkne
        · rw [if_neg haid] at hk
          cases hk
    have hfin := generate_moves_inv fuel _ _ gfin hinit h
    exact ⟨hfin.2.2, hfin.1⟩

/-- A fully packed solution board: the 2×2 piece at (1,0) and nine pieces
covering the remaining 16 cells, so no piece can move at all.  Feeding it
to the discovery loop produces a finished two-node graph in two steps. -/
def jamBoard : Board :=
  ⟨SIZE, [
    ⟨⟨0, 0⟩, ⟨1, 2⟩⟩,
    ⟨⟨0, 2⟩, ⟨2, 1⟩⟩,
    ⟨⟨0, 3⟩, ⟨2, 1⟩⟩,
    ⟨⟨0, 4⟩, ⟨2, 1⟩⟩,
    ⟨⟨1, 0⟩, ⟨2, 2⟩⟩,
    ⟨⟨2, 2⟩, ⟨2, 1⟩⟩,
    ⟨⟨2, 3⟩, ⟨2, 1⟩⟩,
    ⟨⟨2, 4⟩, ⟨1, 1⟩⟩,
    ⟨⟨3, 0⟩, ⟨1, 2⟩⟩,
    ⟨⟨3, 4⟩, ⟨1, 1⟩⟩]⟩

/-- The finished graph of the discovery loop run on `jamBoard`: the jam
node carries the synthetic edge to the anchor and the anchor carries the
back edge — and nothing else. -/
def jamFinal : GraphMap :=
  [(to_id jamBoard,
     { board := jamBoard, edges := [⟨to_id get_solved_board, fakeMove⟩],
       distance_to_start := none, distance_to_solution := none,
       on_shortest_path := false }),
   (to_id get_solved_board,
     { board := get_solved_board, edges := [⟨to_id jamBoard, fakeMove⟩],
       distance_to_start := none, distance_to_solution := none,
       on_shortest_path := false })]

/-- C6, counterexample: in a finished discovery graph (here produced from a
valid jammed solution board) the solved-anchor node's own board satisfies
`is_solution`, yet the anchor has NO outgoing edge to the anchor's id — the
claim's "every node whose board satisfies is_solution has an outgoing edge
to the anchor's id" fails at the anchor node itself, which only ever
receives back edges towards discovered solution boards. -/
theorem c6_counterexample :
    (is_valid jamBoard &&
      match generate_moves 2
          [(to_id get_solved_board, newNode get_solved_board)] [jamBoard] with
      | some gfin =>
        match lookupNode gfin (to_id get_solved_board) with
        | some an =>
          is_solution an.board &&
            !(an.edges.any fun e => decide (e.neighbor = to_id get_solved_board))
        | none => false
      | none => false) = true := by
  decide

/-- C6 witness: the amended theorem applied to the concrete finished run on
the jammed solution board. -/
theorem c6_witness :
    generate_moves 2 [(to_id get_solved_board, newNode get_solved_board)]
        [jamBoard] = some jamFinal ∧
    ((∀ k n, lookupNode jamFinal k = some n → k ≠ to_id get_solved_board →
      is_solution n.board = true →
      (∃ e ∈ n.edges, e.neighbor = to_id get_solved_board ∧
        e.slide_move = fakeMove) ∧
      (∃ an, lookupNode jamFinal (to_id get_solved_board) = some an ∧
        ∃ e ∈ an.edges, e.neighbor = k ∧ e.slide_move = fakeMove)) ∧
    (∃ an, lookupNode jamFinal (to_id get_solved_board) = some an ∧
      an.board = get_solved_board ∧
      ∀ e ∈ an.edges, e.neighbor ≠ to_id get_solved_board)) :=
  ⟨by decide, c6_solution_edges.2.2.2 2 [jamBoard] jamFinal (by decide) (by decide)⟩

/-! ## Claim C1 — the BFS pass labels minimal distances

`PathN g a k n` says the graph holds a directed path of `n` edges from `a`
to `k`; the traversal's labels are related to the minimal such `n`. -/

inductive PathN (g : GraphMap) (a : BoardId) : BoardId → Nat → Prop where
  | refl : PathN g a a 0
  | step : ∀ {j : BoardId} {n : Nat} {node : Node} {e : Edge},
      PathN g a j n → lookupNode g j = some node → e ∈ node.edges →
      PathN g a e.neighbor (n + 1)

/-- Node `k` carries distance label `d` in the targeted field. -/
def labels (fld : DistField) (g : GraphMap) (k : BoardId) (d : Nat) : Prop :=
  ∃ n, lookupNode g k = some n ∧ getDist fld n = some d

/-- Two maps agree on keys, boards and edges (only distance labels differ). -/
def SameStruct (g0 g : GraphMap) : Prop :=
  (∀ k n, lookupNode g k = some n → ∃ n0, lookupNode g0 k = some n0 ∧
    n0.board = n.board ∧ n0.edges = n.edges) ∧
  (∀ k n0, lookupNode g0 k = some n0 → ∃ n, lookupNode g k = some n ∧
    n0.board = n.board ∧ n0.edges = n.edges)

theorem sameStruct_refl (g : GraphMap) : SameStruct g g :=
  ⟨fun k n h => ⟨n, h, rfl, rfl⟩, fun k n h => ⟨n, h, rfl, rfl⟩⟩

theorem setDist_board (fld : DistField) (n : Node) (d : Nat) :
    (setDist fld n d).board = n.board := by
  cases fld <;> rfl

theorem setDist_edges (fld : DistField) (n : Node) (d : Nat) :
    (setDist fld n d).edges = n.edges := by
  cases fld <;> rfl

theorem sameStruct_labelNode (g0 g : GraphMap) (k : BoardId) (fld : DistField)
    (d : Nat) (h : SameStruct g0 g) : SameStruct g0 (labelNode g k fld d) := by
  obtain ⟨h1, h2⟩ := h
  constructor
  · intro k' n hn
    by_cases hk : k = k'
    · subst hk
      rw [labelNode, lookupNode_updateNode_self] at hn
      cases hg : lookupNode g k with
      | none => rw [hg] at hn; cases hn
      | some m =>
        rw [hg] at hn
        obtain rfl : setDist fld m d = n := Option.some.inj hn
        obtain ⟨n0, hn0, hb, he⟩ := h1 k m hg
        exact ⟨n0, hn0, by rw [hb, setDist_board], by rw [he, setDist_edges]⟩
    · rw [labelNode, lookupNode_updateNode_ne g k k' _ hk] at hn
      exact h1 k' n hn
  · intro k' n0 hn0
    obtain ⟨n, hn, hb, he⟩ := h2 k' n0 hn0
    by_cases hk : k = k'
    · subst hk
      refine ⟨setDist fld n d, ?_, by rw [hb, setDist_board], by rw [he, setDist_edges]⟩
      rw [labelNode, lookupNode_updateNode_self, hn]
      rfl
    · refine ⟨n, ?_, hb, he⟩
      rw [labelNode, lookupNode_updateNode_ne g k k' _ hk]
      exact hn

/-- Unfolding equations of the well-founded `bfsAux`. -/
theorem bfsAux_nil (fld : DistField) (g : GraphMap) (maxd : Nat) :
    bfsAux fld g [] maxd = some (g, maxd) := by
  rw [bfsAux]

theorem bfsAux_panic (fld : DistField) (g : GraphMap) (k : BoardId) (d : Nat)
    (rest : List (BoardId × Nat)) (maxd : Nat) (h : lookupNode g k = none) :
    bfsAux fld g ((k, d) :: rest) maxd = none := by
  rw [bfsAux]
  rw [h]

/-- A node whose field is already set is skipped: the graph is unchanged
and none of its neighbors are enqueued. -/
theorem bfsAux_skip (fld : DistField) (g : GraphMap) (k : BoardId) (d : Nat)
    (rest : List (BoardId × Nat)) (maxd : Nat) (n : Node) (d0 : Nat)
    (hl : lookupNode g k = some n) (hn : getDist fld n = some d0) :
    bfsAux fld g ((k, d) :: rest) maxd = bfsAux fld g rest maxd := by
  rw [bfsAux]
  rw [hl]
  dsimp only
  rw [hn]

theorem bfsAux_label (fld : DistField) (g : GraphMap) (k : BoardId) (d : Nat)
    (rest : List (BoardId × Nat)) (maxd : Nat) (n : Node)
    (hl : lookupNode g k = some n) (hn : getDist fld n = none) :
    bfsAux fld g ((k, d) :: rest) maxd =
      bfsAux fld (labelNode g k fld d)
        (rest ++ n.edges.map fun e => (e.neighbor, d + 1)) (max maxd d) := by
  rw [bfsAux]
  rw [hl]
  dsimp only
  rw [hn]

theorem labels_unique (fld : DistField) (g : GraphMap) (k : BoardId)
    (d d' : Nat) (h : labels fld g k d) (h' : labels fld g k d') : d = d' := by
  obtain ⟨n, hn, hd⟩ := h
  obtain ⟨n', hn', hd'⟩ := h'
  rw [hn] at hn'
  obtain rfl := Option.some.inj hn'
  rw [hd] at hd'
  exact Option.some.inj hd'

/-- Labels after labeling `k` with `d` (where `k` was unlabeled). -/
theorem labels_labelNode (fld : DistField) (g : GraphMap) (k : BoardId)
    (d : Nat) (n : Node) (hl : lookupNode g k = some n)
    (hn : getDist fld n = none) (j : BoardId) (dj : Nat) :
    labels fld (labelNode g k fld d) j dj ↔
      (j = k ∧ dj = d) ∨ labels fld g j dj := by
  constructor
  · intro hlab
    obtain ⟨m, hm, hdm⟩ := hlab
    by_cases hk : k = j
    · subst hk
      rw [labelNode, lookupNode_updateNode_self, hl] at hm
      obtain rfl : setDist fld n d = m := Option.some.inj hm
      rw [getDist_setDist] at hdm
      exact Or.inl ⟨rfl, (Option.some.inj hdm).symm⟩
    · rw [labelNode, lookupNode_updateNode_ne g k j _ hk] at hm
      exact Or.inr ⟨m, hm, hdm⟩
  · intro hcase
    rcases hcase with ⟨hj, hdj⟩ | ⟨m, hm, hdm⟩
    · rw [hj, hdj]
      refine ⟨setDist fld n d, ?_, getDist_setDist fld n d⟩
      rw [labelNode, lookupNode_updateNode_self, hl]
      rfl
    · by_cases hk : k = j
      · subst hk
        rw [hl] at hm
        obtain rfl := Option.some.inj hm
        rw [hn] at hdm
        cases hdm
      · refine ⟨m, ?_, hdm⟩
        rw [labelNode, lookupNode_updateNode_ne g k j _ hk]
        exact hm

theorem pairwise_of_total {α : Type} (R : α → α → Prop) (h : ∀ a b, R a b) :
    ∀ l : List α, l.Pairwise R := by
  intro l
  induction l with
  | nil => exact List.Pairwise.nil
  | cons a t ih => exact List.Pairwise.cons (fun b _ => h a b) ih

theorem lookupNode_some_mem (g : GraphMap) (k : BoardId) (n : Node)
    (h : lookupNode g k = some n) : (k, n) ∈ g := by
  induction g with
  | nil => cases h
  | cons hd rest ih =>
    obtain ⟨k0, n0⟩ := hd
    rw [lookupNode_cons] at h
    by_cases hk : k0 = k
    · rw [if_pos hk] at h
      obtain rfl := Option.some.inj h
      rw [hk]
      exact List.mem_cons_self _ _
    · rw [if_neg hk] at h
      exact List.mem_cons_of_mem _ (ih h)

theorem lookup_isSome_of_key_mem (g : GraphMap) (k : BoardId)
    (h : ∃ p ∈ g, p.1 = k) : ∃ n, lookupNode g k = some n := by
  induction g with
  | nil => simp at h
  | cons hd rest ih =>
    obtain ⟨k0, n0⟩ := hd
    rw [lookupNode_cons]
    by_cases hk : k0 = k
    · exact ⟨n0, if_pos hk⟩
    · rw [if_neg hk]
      apply ih
      obtain ⟨p, hp, hpk⟩ := h
      rcases List.mem_cons.1 hp with rfl | hrest
      · exact absurd hpk hk
      · exact ⟨p, hrest, hpk⟩

/-- The BFS loop invariant: the evolving map has the original structure;
queue distances are nondecreasing and within one of each other; every
queue entry is reachable at its distance and keyed in the map; labels are
no larger than any queued distance, each label witnesses a path, every
labeled node's neighbors are labeled or queued within distance+1, the
origin is labeled 0 or still queued, and `maxd` is the maximum label. -/
structure BfsInv (fld : DistField) (g0 : GraphMap) (origin : BoardId)
    (g : GraphMap) (q : List (BoardId × Nat)) (maxd : Nat) : Prop where
  same : SameStruct g0 g
  qsorted : List.Pairwise (fun a b : BoardId × Nat => a.2 ≤ b.2) q
  qband : ∀ a ∈ q, ∀ b ∈ q, a.2 ≤ b.2 + 1
  qpath : ∀ e ∈ q, PathN g0 origin e.1 e.2
  qmem : ∀ e ∈ q, ∃ n, lookupNode g0 e.1 = some n
  labLe : ∀ k d, labels fld g k d → ∀ e ∈ q, d ≤ e.2
  labPath : ∀ k d, labels fld g k d → PathN g0 origin k d
  labClosure : ∀ k d n, lookupNode g k = some n → getDist fld n = some d →
    ∀ e ∈ n.edges, (∃ dm, labels fld g e.neighbor dm ∧ dm ≤ d + 1) ∨
      (∃ d2, (e.neighbor, d2) ∈ q ∧ d2 ≤ d + 1)
  originLab : labels fld g origin 0 ∨ (origin, 0) ∈ q
  maxLe : ∀ k d, labels fld g k d → d ≤ maxd
  maxWit : maxd = 0 ∨ ∃ k, labels fld g k maxd

theorem bfsAux_correct (fld : DistField) (g0 : GraphMap) (origin : BoardId)
    (hclosed : ∀ k n, lookupNode g0 k = some n → ∀ e ∈ n.edges,
      ∃ m, lookupNode g0 e.neighbor = some m) :
    ∀ (c : Nat) (g : GraphMap), countNone fld g = c →
      ∀ (q : List (BoardId × Nat)) (maxd : Nat),
        BfsInv fld g0 origin g q maxd →
        ∃ g' maxv, bfsAux fld g q maxd = some (g', maxv) ∧
          BfsInv fld g0 origin g' [] maxv := by
  intro c
  induction c using Nat.strong_induction_on with
  | _ c ihc =>
    intro g hg q
    induction q with
    | nil =>
      intro maxd hinv
      exact ⟨g, maxd, bfsAux_nil fld g maxd, hinv⟩
    | cons hd rest ihq =>
      obtain ⟨k, d⟩ := hd
      intro maxd hinv
      obtain ⟨n0, hn0⟩ := hinv.qmem (k, d) (List.mem_cons_self _ _)
      obtain ⟨n, hn, hnb, hnedges⟩ := hinv.same.2 k n0 hn0
      have hheadmem : ((k, d) : BoardId × Nat) ∈ (k, d) :: rest :=
        List.mem_cons_self _ _
      have hd_le_rest : ∀ e ∈ rest, d ≤ e.2 :=
        fun e he => (List.pairwise_cons.1 hinv.qsorted).1 e he
      cases hgd : getDist fld n with
      | some d0 =>
        rw [bfsAux_skip fld g k d rest maxd n d0 hn hgd]
        apply ihq maxd
        have hlabk : labels fld g k d0 := ⟨n, hn, hgd⟩
        have hd0d : d0 ≤ d := hinv.labLe k d0 hlabk (k, d) hheadmem
        refine { same := hinv.same, qsorted := (List.pairwise_cons.1 hinv.qsorted).2,
                 qband := ?_, qpath := ?_, qmem := ?_, labLe := ?_,
                 labPath := hinv.labPath, labClosure := ?_, originLab := ?_,
                 maxLe := hinv.maxLe, maxWit := hinv.maxWit }
        · intro a ha b hb
          exact hinv.qband a (List.mem_cons_of_mem _ ha) b (List.mem_cons_of_mem _ hb)
        · intro e he
          exact hinv.qpath e (List.mem_cons_of_mem _ he)
        · intro e he
          exact hinv.qmem e (List.mem_cons_of_mem _ he)
        · intro k' d' hl' e he
          exact hinv.labLe k' d' hl' e (List.mem_cons_of_mem _ he)
        · intro j dj m hm hdm e he
          rcases hinv.labClosure j dj m hm hdm e he with hleft | ⟨d2, hd2mem, hd2le⟩
          · exact Or.inl hleft
          · rcases List.mem_cons.1 hd2mem with heq | hrest
            · have hek : e.neighbor = k := congrArg Prod.fst heq
              have hd2 : d2 = d := congrArg Prod.snd heq
              refine Or.inl ⟨d0, ?_, ?_⟩
              · rw [hek]
                exact hlabk
              · calc d0 ≤ d := hd0d
                  _ = d2 := hd2.symm
                  _ ≤ dj + 1 := hd2le
            · exact Or.inr ⟨d2, hrest, hd2le⟩
        · rcases hinv.originLab with ho | ho
          · exact Or.inl ho
          · rcases List.mem_cons.1 ho with heq | hrest
            · have hok : origin = k := congrArg Prod.fst heq
              have h0d : (0 : Nat) = d := congrArg Prod.snd heq
              left
              rw [hok]
              have hz : d0 = 0 := Nat.le_zero.1 (h0d ▸ hd0d)
              rw [← hz]
              exact hlabk
            · exact Or.inr hrest
      | none =>
        rw [bfsAux_label fld g k d rest maxd n hn hgd]
        have hcnt : countNone fld (labelNode g k fld d) < c := by
          rw [← hg]
          exact countNone_labelNode_lt fld g k d n hn hgd
        apply ihc _ hcnt _ rfl
        have hlabels := labels_labelNode fld g k d n hn hgd
        have hpushmem : ∀ x ∈ (n.edges.map fun e => (e.neighbor, d + 1)),
            x.2 = d + 1 ∧ ∃ e ∈ n.edges, x.1 = e.neighbor := by
          intro x hx
          obtain ⟨e, he, rfl⟩ := List.mem_map.1 hx
          exact ⟨rfl, e, he, rfl⟩
        have hpathk : PathN g0 origin k d := hinv.qpath (k, d) hheadmem
        refine { same := sameStruct_labelNode g0 g k fld d hinv.same,
                 qsorted := ?_, qband := ?_, qpath := ?_, qmem := ?_,
                 labLe := ?_, labPath := ?_, labClosure := ?_,
                 originLab := ?_, maxLe := ?_, maxWit := ?_ }
        · rw [List.pairwise_append]
          refine ⟨(List.pairwise_cons.1 hinv.qsorted).2, ?_, ?_⟩
          · rw [List.pairwise_map]
            exact pairwise_of_total _ (fun _ _ => Nat.le_refl _) _
          · intro a ha b hb
            rw [(hpushmem b hb).1]
            exact hinv.qband a (List.mem_cons_of_mem _ ha) (k, d) hheadmem
        · intro a ha b hb
          rcases List.mem_append.1 ha with ha' | ha' <;>
            rcases List.mem_append.1 hb with hb' | hb'
          · exact hinv.qband a (List.mem_cons_of_mem _ ha') b (List.mem_cons_of_mem _ hb')
          · rw [(hpushmem b hb').1]
            have := hinv.qband a (List.mem_cons_of_mem _ ha') (k, d) hheadmem
            omega
          · rw [(hpushmem a ha').1]
            have := hd_le_rest b hb'
            omega
          · rw [(hpushmem a ha').1, (hpushmem b hb').1]
            omega
        · intro e he
          rcases List.mem_append.1 he with he' | he'
          · exact hinv.qpath e (List.mem_cons_of_mem _ he')
          · obtain ⟨hsnd, e0, he0, hfst⟩ := hpushmem e he'
            have hstep : PathN g0 origin e0.neighbor (d + 1) :=
              PathN.step hpathk hn0 (by rw [hnedges]; exact he0)
            obtain ⟨e1, e2⟩ := e
            simp only at hsnd hfst
            rw [hsnd, hfst]
            exact hstep
        · intro e he
          rcases List.mem_append.1 he with he' | he'
          · exact hinv.qmem e (List.mem_cons_of_mem _ he')
          · obtain ⟨hsnd, e0, he0, hfst⟩ := hpushmem e he'
            rw [hfst]
            exact hclosed k n0 hn0 e0 (by rw [hnedges]; exact he0)
        · intro j dj hj e he
          rcases (hlabels j dj).1 hj with ⟨hjk, hjd⟩ | hold
          · rcases List.mem_append.1 he with he' | he'
            · rw [hjd]
              exact hd_le_rest e he'
            · rw [hjd, (hpushmem e he').1]
              omega
          · rcases List.mem_append.1 he with he' | he'
            · exact hinv.labLe j dj hold e (List.mem_cons_of_mem _ he')
            · rw [(hpushmem e he').1]
              have := hinv.labLe j dj hold (k, d) hheadmem
              omega
        · intro j dj hj
          rcases (hlabels j dj).1 hj with ⟨hjk, hjd⟩ | hold
          · rw [hjk, hjd]
            exact hpathk
          · exact hinv.labPath j dj hold
        · intro j dj m hm hdm e he
          by_cases hjk : k = j
          · subst hjk
            rw [labelNode, lookupNode_updateNode_self, hn] at hm
            obtain rfl : setDist fld n d = m := Option.some.inj hm
            rw [getDist_setDist] at hdm
            obtain rfl : d = dj := Option.some.inj hdm
            rw [setDist_edges] at he
            refine Or.inr ⟨d + 1, ?_, Nat.le_refl _⟩
            exact List.mem_append.2 (Or.inr (List.mem_map.2 ⟨e, he, rfl⟩))
          · rw [labelNode, lookupNode_updateNode_ne g k j _ hjk] at hm
            rcases hinv.labClosure j dj m hm hdm e he with
              ⟨dm, hlabold, hle⟩ | ⟨d2, hd2mem, hd2le⟩
            · exact Or.inl ⟨dm, (hlabels e.neighbor dm).2 (Or.inr hlabold), hle⟩
            · rcases List.mem_cons.1 hd2mem with heq | hrest
              · have hek : e.neighbor = k := congrArg Prod.fst heq
                have hd2 : d2 = d := congrArg Prod.snd heq
                refine Or.inl ⟨d, ?_, by omega⟩
                rw [hek]
                exact (hlabels k d).2 (Or.inl ⟨rfl, rfl⟩)
              · exact Or.inr ⟨d2, List.mem_append.2 (Or.inl hrest), hd2le⟩
        · rcases hinv.originLab with ho | ho
          · exact Or.inl ((hlabels origin 0).2 (Or.inr ho))
          · rcases List.mem_cons.1 ho with heq | hrest
            · have hok : origin = k := congrArg Prod.fst heq
              have h0d : (0 : Nat) = d := congrArg Prod.snd heq
              exact Or.inl ((hlabels origin 0).2 (Or.inl ⟨hok, h0d⟩))
            · exact Or.inr (List.mem_append.2 (Or.inl hrest))
        · intro j dj hj
          rcases (hlabels j dj).1 hj with ⟨hjk, hjd⟩ | hold
          · rw [hjd]
            exact Nat.le_max_right maxd d
          · exact Nat.le_trans (hinv.maxLe j dj hold) (Nat.le_max_left maxd d)
        · by_cases hcase : maxd ≤ d
          · refine Or.inr ⟨k, ?_⟩
            rw [Nat.max_eq_right hcase]
            exact (hlabels k d).2 (Or.inl ⟨rfl, rfl⟩)
          · have hdm : d ≤ maxd := Nat.le_of_not_le hcase
            rw [Nat.max_eq_left hdm]
            rcases hinv.maxWit with h0 | ⟨j, hj⟩
            · exact absurd (h0 ▸ Nat.zero_le d) hcase
            · exact Or.inr ⟨j, (hlabels j maxd).2 (Or.inr hj)⟩

/-- C1 (amended): the skip clause holds unconditionally — a popped node
whose field is already set leaves the graph untouched and enqueues nothing.
The labeling clause holds for a graph whose edges all point at existing
nodes and whose targeted distance fields are all unset (both true in the
two invocations from `analyze`): the pass terminates, every node reachable
from the origin gets the minimal edge count from the origin as its label
(and only reachable nodes get labels), and the returned value is the
maximum label assigned.  Without the closed-edges hypothesis the pass can
panic instead of returning (see the counterexample). -/
theorem c1_distance_from_minimal :
    (∀ (fld : DistField) (g : GraphMap) (k : BoardId) (d : Nat)
        (rest : List (BoardId × Nat)) (maxd : Nat) (n : Node) (d0 : Nat),
      lookupNode g k = some n → getDist fld n = some d0 →
      bfsAux fld g ((k, d) :: rest) maxd = bfsAux fld g rest maxd) ∧
    (∀ (fld : DistField) (g : GraphMap) (origin : BoardId),
      (∀ p ∈ g, ∀ e ∈ p.2.edges, ∃ pq ∈ g, pq.1 = e.neighbor) →
      (∀ p ∈ g, getDist fld p.2 = none) →
      (∃ p ∈ g, p.1 = origin) →
      ∃ g' maxv, distance_from fld g origin = some (g', maxv) ∧
        SameStruct g g' ∧
        (∀ k d, labels fld g' k d ↔
          (PathN g origin k d ∧ ∀ m, PathN g origin k m → d ≤ m)) ∧
        (∀ k d, labels fld g' k d → d ≤ maxv) ∧
        (∃ k, labels fld g' k maxv)) := by
  constructor
  · intro fld g k d rest maxd n d0 hl hn
    exact bfsAux_skip fld g k d rest maxd n d0 hl hn
  · intro fld g origin hmemclosed hunlab hog
    have hclosed : ∀ k n, lookupNode g k = some n → ∀ e ∈ n.edges,
        ∃ m, lookupNode g e.neighbor = some m := by
      intro k n hk e he
      obtain ⟨pq, hpq, hpqk⟩ := hmemclosed (k, n) (lookupNode_some_mem g k n hk) e he
      exact lookup_isSome_of_key_mem g e.neighbor ⟨pq, hpq, hpqk⟩
    have hunlab' : ∀ k n, lookupNode g k = some n → getDist fld n = none :=
      fun k n hk => hunlab (k, n) (lookupNode_some_mem g k n hk)
    obtain ⟨norg, hnorg⟩ := lookup_isSome_of_key_mem g origin hog
    have hinv0 : BfsInv fld g origin g [(origin, 0)] 0 := by
      refine { same := sameStruct_refl g, qsorted := ?_, qband := ?_,
               qpath := ?_, qmem := ?_, labLe := ?_, labPath := ?_,
               labClosure := ?_, originLab := Or.inr (List.mem_singleton.2 rfl),
               maxLe := ?_, maxWit := Or.inl rfl }
      · exact List.pairwise_singleton _ _
      · intro a ha b hb
        rcases List.mem_singleton.1 ha with rfl
        rcases List.mem_singleton.1 hb with rfl
        exact Nat.le_succ 0
      · intro e he
        rcases List.mem_singleton.1 he with rfl
        exact PathN.refl
      · intro e he
        rcases List.mem_singleton.1 he with rfl
        exact ⟨norg, hnorg⟩
      · intro k d hl
        obtain ⟨n, hn, hd⟩ := hl
        rw [hunlab' k n hn] at hd
        cases hd
      · intro k d hl
        obtain ⟨n, hn, hd⟩ := hl
        rw [hunlab' k n hn] at hd
        cases hd
      · intro k d n hn hd
        rw [hunlab' k n hn] at hd
        cases hd
      · intro k d hl
        obtain ⟨n, hn, hd⟩ := hl
        rw [hunlab' k n hn] at hd
        cases hd
    obtain ⟨g', maxv, hrun, hfin⟩ :=
      bfsAux_correct fld g origin hclosed (countNone fld g) g rfl
        [(origin, 0)] 0 hinv0
    have horigin0 : labels fld g' origin 0 := by
      rcases hfin.originLab with h | h
      · exact h
      · exact absurd h (List.not_mem_nil _)
    have hcomplete : ∀ k m, PathN g origin k m →
        ∃ dm, labels fld g' k dm ∧ dm ≤ m := by
      intro k m hp
      induction hp with
      | refl => exact ⟨0, horigin0, Nat.le_refl 0⟩
      | step hp' hlook hedge ih =>
        obtain ⟨dj, hlabj, hdjle⟩ := ih
        rename_i j nn node e
        obtain ⟨nj, hnj, hnjb, hnje⟩ := hfin.same.2 j node hlook
        obtain ⟨nj', hnj', hdj'⟩ := hlabj
        have heqn : nj = nj' := by
          rw [hnj] at hnj'
          exact Option.some.inj hnj'
        subst heqn
        rcases hfin.labClosure j dj nj hnj hdj' e
            (by rw [← hnje]; exact hedge) with
          ⟨dm, hlabm, hdmle⟩ | ⟨d2, hd2mem, _⟩
        · exact ⟨dm, hlabm, by omega⟩
        · exact absurd hd2mem (List.not_mem_nil _)
    refine ⟨g', maxv, hrun, hfin.same, ?_, hfin.maxLe, ?_⟩
    · intro k d
      constructor
      · intro hl
        refine ⟨hfin.labPath k d hl, ?_⟩
        intro m hm
        obtain ⟨dm, hldm, hdmm⟩ := hcomplete k m hm
        have := labels_unique fld g' k d dm hl hldm
        omega
      · intro hpm
        obtain ⟨hp, hmin⟩ := hpm
        obtain ⟨dm, hldm, hdmd⟩ := hcomplete k d hp
        have hge : d ≤ dm := hmin dm (hfin.labPath k dm hldm)
        have heq : d = dm := by omega
        rw [heq]
        exact hldm
    · rcases hfin.maxWit with h0 | hex
      · refine ⟨origin, ?_⟩
        rw [h0]
        exact horigin0
      · exact hex

/-- A well-formed three-node chain 0 → 1 → 2 used as a concrete BFS input. -/
def bfsDemoGraph : GraphMap :=
  [(0,
     { board := get_start_board, edges := [⟨1, fakeMove⟩],
       distance_to_start := none, distance_to_solution := none,
       on_shortest_path := false }),
   (1,
     { board := get_start_board, edges := [⟨2, fakeMove⟩],
       distance_to_start := none, distance_to_solution := none,
       on_shortest_path := false }),
   (2,
     { board := get_start_board, edges := [],
       distance_to_start := none, distance_to_solution := none,
       on_shortest_path := false })]

/-- C1 witness: the labeling clause applied to the concrete chain. -/
theorem c1_witness :
    ((∀ p ∈ bfsDemoGraph, ∀ e ∈ p.2.edges, ∃ pq ∈ bfsDemoGraph, pq.1 = e.neighbor) ∧
      (∀ p ∈ bfsDemoGraph, getDist DistField.toStart p.2 = none) ∧
      (∃ p ∈ bfsDemoGraph, p.1 = 0)) ∧
    (∃ g' maxv, distance_from DistField.toStart bfsDemoGraph 0 = some (g', maxv) ∧
      SameStruct bfsDemoGraph g' ∧
      (∀ k d, labels DistField.toStart g' k d ↔
        (PathN bfsDemoGraph 0 k d ∧ ∀ m, PathN bfsDemoGraph 0 k m → d ≤ m)) ∧
      (∀ k d, labels DistField.toStart g' k d → d ≤ maxv) ∧
      (∃ k, labels DistField.toStart g' k maxv)) :=
  ⟨⟨by decide, by decide, by decide⟩,
    c1_distance_from_minimal.2 DistField.toStart bfsDemoGraph 0
      (by decide) (by decide) (by decide)⟩

/-- A graph with a dangling edge: node 0 exists but its edge points at the
absent id 1. -/
def danglingGraph : GraphMap :=
  [(0,
     { board := get_start_board, edges := [⟨1, fakeMove⟩],
       distance_to_start := none, distance_to_solution := none,
       on_shortest_path := false })]

/-- C1, counterexample: the claim quantifies over every graph and every
origin that has a node, but on a graph with an edge to an id that has no
node the pass panics (modelled as `none`) after labeling the origin — it
neither labels every reachable node nor returns a maximum. -/
theorem c1_counterexample :
    (∃ p ∈ danglingGraph, p.1 = 0) ∧
    distance_from DistField.toStart danglingGraph 0 = none := by
  refine ⟨by decide, ?_⟩
  show bfsAux DistField.toStart danglingGraph [(0, 0)] 0 = none
  rw [bfsAux_label DistField.toStart danglingGraph 0 0 [] 0
    ⟨get_start_board, [⟨1, fakeMove⟩], none, none, false⟩ rfl rfl]
  exact bfsAux_panic DistField.toStart _ 1 1 [] _ rfl

end WiggersGraaf
